import Mathlib

/-!
Verification development for the `p2p_distributed_tswap` repository.

The definitions below are a shallow embedding of the Rust sources:
* `src/algorithm/tswap.rs` (graph construction, static A*, `tswap_step`,
  `tswap_mapd`),
* `src/algorithm/a_star.rs` (time-expanded A* with reservations),
* `src/map/make_node.rs` and `src/map/task_generator.rs` (free cells, tasks),
* `src/map/task_metrics.rs` (task metrics collector).

Modelling conventions:
* `usize` becomes `Nat` (the source never exercises wrap-around; the single
  place where `usize::MAX` appears is kept literally as `usizeMax`).
* Rust `HashMap`s become association lists with `List.lookup`; an insert is a
  `cons`, which shadows older entries exactly as `HashMap::insert` replaces.
* Rust `HashSet`s become `List`s queried with `List.contains`.
* `BinaryHeap` becomes a list; `pop` extracts an element that is maximal for
  the embedded `Ord` (ties between `Ordering.eq` elements are unspecified in
  Rust; the model keeps the earliest maximal element).
* Loops whose termination is not structural are given an explicit fuel
  argument; running out of fuel yields `none`, so a `some` result is a run the
  Rust program performs verbatim.
* Rust panics (out-of-range indexing, `assert!`) are modelled with `Except`
  or with explicitly noted defaults at places the claims never exercise.
-/

namespace P2PTswap

/-- A grid cell, `(x, y)`, as in `map::map::Point`. -/
abbrev Point := Nat × Nat

/-- `manhattan_distance` from `src/algorithm/tswap.rs`:
`(|x1 - x2| + |y1 - y2|)` computed via signed casts. -/
def manhattan_distance (p1 p2 : Point) : Nat :=
  ((p1.1 : Int) - (p2.1 : Int)).natAbs + ((p1.2 : Int) - (p2.2 : Int)).natAbs

/-! ### A model of `std::collections::BinaryHeap`

`pop` removes a greatest element w.r.t. the `Ord` instance.  The model scans
the list and keeps the earliest element that no later element strictly
exceeds. -/

/-- Select a maximal element (w.r.t. `cmp`) out of `b :: xs`; returns it
together with the remaining elements. -/
def popMaxAux (cmp : α → α → Ordering) : α → List α → α × List α
  | b, [] => (b, [])
  | b, x :: xs =>
    if cmp x b = .gt then
      let r := popMaxAux cmp x xs
      (r.1, b :: r.2)
    else
      let r := popMaxAux cmp b xs
      (r.1, x :: r.2)

/-- `BinaryHeap::pop`: `none` on the empty heap, otherwise a maximal element
and the rest. -/
def heapPop (cmp : α → α → Ordering) : List α → Option (α × List α)
  | [] => none
  | x :: xs => some (popMaxAux cmp x xs)

theorem popMaxAux_perm (cmp : α → α → Ordering) (b : α) (xs : List α) :
    List.Perm ((popMaxAux cmp b xs).1 :: (popMaxAux cmp b xs).2) (b :: xs) := by
  induction xs generalizing b with
  | nil => simp [popMaxAux]
  | cons x xs ih =>
    simp only [popMaxAux]
    by_cases h : cmp x b = .gt
    · simp only [h, if_pos]
      exact List.Perm.trans (List.Perm.swap _ _ _)
        (List.Perm.trans ((ih x).cons b) (List.Perm.refl _))
    · simp only [h, if_neg, if_false]
      exact List.Perm.trans (List.Perm.swap _ _ _)
        (List.Perm.trans ((ih b).cons x) (List.Perm.swap _ _ _))

theorem heapPop_perm (cmp : α → α → Ordering) {l : List α} {m : α}
    {rest : List α} (h : heapPop cmp l = some (m, rest)) :
    List.Perm (m :: rest) l := by
  cases l with
  | nil => simp [heapPop] at h
  | cons x xs =>
    simp only [heapPop, Option.some.injEq] at h
    have := popMaxAux_perm cmp x xs
    rw [show (popMaxAux cmp x xs).1 = m by rw [h], show (popMaxAux cmp x xs).2 = rest by rw [h]] at this
    exact this

theorem heapPop_eq_none (cmp : α → α → Ordering) {l : List α}
    (h : heapPop cmp l = none) : l = [] := by
  cases l with
  | nil => rfl
  | cons x xs => simp [heapPop] at h

/-! ### Association-list model of `HashMap` -/

theorem lookup_mem [BEq α] [LawfulBEq α] {l : List (α × β)} {k : α} {v : β}
    (h : l.lookup k = some v) : (k, v) ∈ l := by
  induction l with
  | nil => simp [List.lookup] at h
  | cons e es ih =>
    rw [List.lookup] at h
    cases hk : k == e.1 with
    | true =>
      rw [hk] at h
      simp only [Option.some.injEq] at h
      have hke : k = e.1 := eq_of_beq hk
      subst hke
      rw [← h]
      exact List.mem_cons_self _ _
    | false =>
      rw [hk] at h
      exact List.mem_cons_of_mem _ (ih h)

theorem lookup_isSome_of_mem [BEq α] [LawfulBEq α] {l : List (α × β)} {k : α}
    {v : β} (h : (k, v) ∈ l) : ∃ v', l.lookup k = some v' := by
  induction l with
  | nil => simp at h
  | cons e es ih =>
    rw [List.mem_cons] at h
    rcases h with h | h
    · refine ⟨v, ?_⟩
      rw [← h]
      simp [List.lookup]
    · rcases ih h with ⟨v', hv'⟩
      cases hk : k == e.1 with
      | true => exact ⟨e.2, by rw [List.lookup, hk]⟩
      | false => exact ⟨v', by rw [List.lookup, hk]; exact hv'⟩

/-- `Iterator::position`: index of the first element satisfying `p`. -/
def position (p : α → Bool) : List α → Option Nat
  | [] => none
  | a :: as => if p a then some 0 else (position p as).map (· + 1)

theorem position_eq_none {p : α → Bool} {l : List α}
    (h : position p l = none) : ∀ a ∈ l, p a = false := by
  induction l with
  | nil => intro a ha; simp at ha
  | cons b bs ih =>
    intro a ha
    rw [position] at h
    by_cases hb : p b
    · rw [if_pos hb] at h; simp at h
    · rw [if_neg hb] at h
      rcases List.mem_cons.1 ha with rfl | ha'
      · exact Bool.of_not_eq_true hb
      · exact ih (by simpa using h) a ha'

theorem position_lt_length {p : α → Bool} {l : List α} {i : Nat}
    (h : position p l = some i) : i < l.length := by
  induction l generalizing i with
  | nil => simp [position] at h
  | cons b bs ih =>
    rw [position] at h
    by_cases hb : p b
    · rw [if_pos hb] at h
      simp at h
      simp [← h]
    · rw [if_neg hb] at h
      rcases Option.map_eq_some'.1 h with ⟨i', hi', rfl⟩
      simpa using ih hi'

theorem position_getD {p : α → Bool} {l : List α} {i : Nat} (d : α)
    (h : position p l = some i) : p (l.getD i d) = true := by
  induction l generalizing i with
  | nil => simp [position] at h
  | cons b bs ih =>
    rw [position] at h
    by_cases hb : p b
    · rw [if_pos hb] at h
      simp at h
      simp [← h, hb]
    · rw [if_neg hb] at h
      rcases Option.map_eq_some'.1 h with ⟨i', hi', rfl⟩
      simpa using ih hi'

/-! ### Static A* — `get_path` in `src/algorithm/tswap.rs` (lines 282-384)

The same function appears verbatim in `src/bin/agent.rs` and
`src/bin/centralized/manager.rs`; one embedding covers all three. -/

/-- Graph node (`struct Node` in `tswap.rs`). -/
structure Node where
  id : Nat
  pos : Point
  neighbors : List Nat
  deriving DecidableEq, Repr

/-- Default used where Rust would panic on an out-of-range `nodes[...]`
index; the claims only exercise in-range accesses. -/
def dNode : Node := ⟨0, (0, 0), []⟩

/-- Open-list entry (`struct AstarNode`). -/
structure AstarNode where
  node_id : Nat
  g_cost : Nat
  f_cost : Nat
  deriving DecidableEq, Repr

/-- The `Ord` instance of `AstarNode`:
`other.f_cost.cmp(&self.f_cost).then_with(|| other.g_cost.cmp(&self.g_cost))`.
A `BinaryHeap` pops greatest elements first, so this makes the heap pop
smaller `f_cost` first and, on ties, smaller `g_cost` first. -/
def AstarNode.cmp (self other : AstarNode) : Ordering :=
  (compare other.f_cost self.f_cost).then (compare other.g_cost self.g_cost)

/-- `usize::MAX` (the default of `g_score.get(..).unwrap_or(&usize::MAX)`). -/
def usizeMax : Nat := 2 ^ 64 - 1

/-- The Manhattan heuristic closure inside `get_path`; reads
`nodes[node_id].pos` and `nodes[goal].pos`. -/
def nodeHeuristic (nodes : List Node) (goal node_id : Nat) : Nat :=
  manhattan_distance (nodes.getD node_id dNode).pos (nodes.getD goal dNode).pos

/-- State threaded through `get_path`'s search loop. -/
structure PathSearchState where
  openList : List AstarNode
  cameFrom : List (Nat × Nat)
  gScore : List (Nat × Nat)
  deriving Repr

/-- The body of `for &neighbor_id in &nodes[current_id].neighbors { .. }`:
relax one neighbor of the popped node `current`. -/
def relaxNode (nodes : List Node) (goal : Nat) (current : AstarNode)
    (st : PathSearchState) (neighbor_id : Nat) : PathSearchState :=
  let tentative_g := current.g_cost + 1
  if tentative_g < (st.gScore.lookup neighbor_id).getD usizeMax then
    let h_cost := nodeHeuristic nodes goal neighbor_id
    let f_cost := tentative_g + h_cost
    { openList := ⟨neighbor_id, tentative_g, f_cost⟩ :: st.openList,
      cameFrom := (neighbor_id, current.node_id) :: st.cameFrom,
      gScore := (neighbor_id, tentative_g) :: st.gScore }
  else st

/-- The `while let Some(&parent) = came_from.get(&current_node)` path
reconstruction.  The parent pointers strictly decrease the stored `g_score`,
so the chain is acyclic and visits pairwise distinct keys; a fuel of
`came_from.len() + 1` therefore never runs out on states the search builds. -/
def reconIdsAux (cameFrom : List (Nat × Nat)) :
    Nat → Nat → List Nat → List Nat
  | 0, _, acc => acc
  | fuel + 1, current_node, acc =>
    match cameFrom.lookup current_node with
    | none => acc
    | some parent => reconIdsAux cameFrom fuel parent (acc ++ [parent])

/-- Path reconstruction in `get_path`: push `current_id`, walk parents,
reverse. -/
def reconstructIds (cameFrom : List (Nat × Nat)) (current_id : Nat) :
    List Nat :=
  (reconIdsAux cameFrom (cameFrom.length + 1) current_id [current_id]).reverse

/-- The `while let Some(current) = open_list.pop()` loop of `get_path`.
`none` = fuel ran out (model artifact), `some none` = the open list emptied
without reaching the goal, `some (some p)` = the goal was reached. -/
def getPathLoop (nodes : List Node) (goal : Nat) :
    Nat → PathSearchState → Option (Option (List Nat))
  | 0, _ => none
  | fuel + 1, st =>
    match heapPop AstarNode.cmp st.openList with
    | none => some none
    | some (current, rest) =>
      if current.node_id = goal then
        some (some (reconstructIds st.cameFrom current.node_id))
      else
        getPathLoop nodes goal fuel
          ((nodes.getD current.node_id dNode).neighbors.foldl
            (relaxNode nodes goal current) ⟨rest, st.cameFrom, st.gScore⟩)

/-- The fallback scan after the loop: start from
`(best_neighbor, min_dist) = (start, heuristic(start))` and keep any
neighbor whose heuristic is strictly smaller than the minimum so far. -/
def bestNeighborFold (nodes : List Node) (goal start : Nat) : Nat × Nat :=
  (nodes.getD start dNode).neighbors.foldl
    (fun bm neighbor_id =>
      let dist := nodeHeuristic nodes goal neighbor_id
      if dist < bm.2 then (neighbor_id, dist) else bm)
    (start, nodeHeuristic nodes goal start)

/-- `get_path(start, goal, nodes)`.  Returns `none` only when the fuel runs
out; the Rust function always terminates, so every Rust run is `some`. -/
def get_path (fuel : Nat) (nodes : List Node) (start goal : Nat) :
    Option (List Nat) :=
  if start = goal then some [start]
  else
    match getPathLoop nodes goal fuel
        { openList := [⟨start, 0, nodeHeuristic nodes goal start⟩],
          cameFrom := [], gScore := [(start, 0)] } with
    | none => none
    | some (some path) => some path
    | some none => some [start, (bestNeighborFold nodes goal start).1]

/-! ### `tswap_step` — `src/algorithm/tswap.rs` lines 174-280

Also verbatim in `src/bin/centralized/manager.rs` lines 146-259. -/

/-- `struct Agent` of `tswap.rs` (current node `v`, goal node `g`). -/
structure Agent where
  id : Nat
  v : Nat
  g : Nat
  deriving DecidableEq, Repr

/-- Default for out-of-range agent indexing (never exercised: all indices
come from `range n` or from `position(..)`). -/
def dAgent : Agent := ⟨0, 0, 0⟩

/-- `get_path` as `tswap_step` consumes it.  A fuel-exhausted search is
mapped to `[]`, which every caller treats as "path shorter than 2: skip";
with sufficient fuel this case never occurs. -/
def getPathD (fuel : Nat) (nodes : List Node) (start goal : Nat) :
    List Nat :=
  (get_path fuel nodes start goal).getD []

/-- The deadlock-detection `loop` of the goal-swapping phase: walk the
"blocks" chain from `current_b_idx`, accumulating `a_p`.  Each pass either
stops or appends a fresh index to `a_p`, so `agents.len() + 1` fuel is never
exhausted; the fuel-out result `([], false)` is unreachable. -/
def chainWalk (pathFuel : Nat) (nodes : List Node) (agents : List Agent)
    (i : Nat) : Nat → Nat → List Nat → List Nat × Bool
  | 0, _, _ => ([], false)
  | walkFuel + 1, current_b_idx, a_p =>
    let b := agents.getD current_b_idx dAgent
    if b.v = b.g then (a_p, false)
    else
      let b_path := getPathD pathFuel nodes b.v b.g
      if b_path.length < 2 then (a_p, false)
      else
        let w := b_path.getD 1 0
        match position (fun c => c.v == w) agents with
        | none => (a_p, false)
        | some c_idx =>
          if current_b_idx ∈ a_p then ([], false)
          else
            let a_p' := a_p ++ [current_b_idx]
            if c_idx = i then (a_p', true)
            else chainWalk pathFuel nodes agents i walkFuel c_idx a_p'

/-- The descending `for k in (1..a_p.len()).rev()` rotation loop, consuming
`a_p` from its right end (the argument is `a_p.reverse`):
`agents[a_p[k]].g = agents[a_p[k-1]].g`. -/
def rotAux (agents : List Agent) : List Nat → List Agent
  | x :: y :: rest =>
    rotAux (agents.set x { agents.getD x dAgent with
      g := (agents.getD y dAgent).g }) (y :: rest)
  | _ => agents

/-- Rule 4 target rotation: save `last_goal`, run the descending loop, then
write `agents[a_p[0]].g = last_goal`. -/
def rotateTargets (agents : List Agent) (a_p : List Nat) : List Agent :=
  let last_goal := (agents.getD (a_p.getLastD 0) dAgent).g
  let agents' := rotAux agents a_p.reverse
  let first_agent_idx := a_p.headD 0
  agents'.set first_agent_idx
    { agents'.getD first_agent_idx dAgent with g := last_goal }

/-- One index `i` of the goal-swapping phase (Rules 3 and 4). -/
def goalPhaseStep (pathFuel : Nat) (nodes : List Node)
    (agents : List Agent) (i : Nat) : List Agent :=
  let ai := agents.getD i dAgent
  if ai.v = ai.g then agents
  else
    let path := getPathD pathFuel nodes ai.v ai.g
    if path.length < 2 then agents
    else
      let u := path.getD 1 0
      match position (fun b => b.v == u) agents with
      | none => agents
      | some j =>
        if i = j then agents
        else
          let aj := agents.getD j dAgent
          if aj.v = aj.g then
            -- Rule 3: goal swap with an agent parked at its goal
            (agents.set i { ai with g := aj.g }).set j { aj with g := ai.g }
          else
            -- Rule 4: deadlock detection and rotation
            let walk := chainWalk pathFuel nodes agents i
              (agents.length + 1) j [i]
            if walk.2 ∧ 1 < walk.1.length then rotateTargets agents walk.1
            else agents

/-- One index `i` of the movement phase (Rules 2 and 5 plus mutual swap). -/
def movePhaseStep (pathFuel : Nat) (nodes : List Node)
    (agents : List Agent) (i : Nat) : List Agent :=
  let ai := agents.getD i dAgent
  if ai.v = ai.g then agents
  else
    let path := getPathD pathFuel nodes ai.v ai.g
    if path.length < 2 then agents
    else
      let u := path.getD 1 0
      match position (fun b => b.v == u) agents with
      | some j =>
        if i ≠ j then
          let aj := agents.getD j dAgent
          let path_j := getPathD pathFuel nodes aj.v aj.g
          if 2 ≤ path_j.length ∧ path_j.getD 1 0 = ai.v then
            -- mutual swap
            (agents.set i { ai with v := aj.v }).set j { aj with v := ai.v }
          else agents
        else agents
      | none => agents.set i { ai with v := u }

/-- `tswap_step(agents, nodes)`: the goal-swapping phase then the movement
phase, each a scan over indices `0..n`. -/
def tswap_step (pathFuel : Nat) (nodes : List Node) (agents : List Agent) :
    List Agent :=
  let afterGoals := (List.range agents.length).foldl
    (goalPhaseStep pathFuel nodes) agents
  (List.range agents.length).foldl (movePhaseStep pathFuel nodes) afterGoals

/-! ### List helper lemmas for the `tswap_step` invariants -/

theorem getD_set_ne {l : List α} {d a : α} {i j : Nat} (h : i ≠ j) :
    (l.set i a).getD j d = l.getD j d := by
  induction l generalizing i j with
  | nil => simp
  | cons b bs ih =>
    cases i with
    | zero =>
      cases j with
      | zero => exact absurd rfl h
      | succ j => simp [List.set, List.getD]
    | succ i =>
      cases j with
      | zero => simp [List.set, List.getD]
      | succ j =>
        simp only [List.set, List.getD_cons_succ]
        exact ih (fun hij => h (by rw [hij]))

theorem mem_set_of_mem {l : List α} {a x : α} {i : Nat}
    (h : x ∈ l.set i a) : x = a ∨ x ∈ l := by
  induction l generalizing i with
  | nil => simp at h
  | cons b bs ih =>
    cases i with
    | zero =>
      rcases List.mem_cons.1 h with rfl | h'
      · exact Or.inl rfl
      · exact Or.inr (List.mem_cons_of_mem _ h')
    | succ i =>
      rcases List.mem_cons.1 h with rfl | h'
      · exact Or.inr (List.mem_cons_self _ _)
      · rcases ih h' with h'' | h''
        · exact Or.inl h''
        · exact Or.inr (List.mem_cons_of_mem _ h'')

theorem nodup_set_of_not_mem {l : List α} {a : α} {i : Nat}
    (hl : l.Nodup) (ha : a ∉ l) : (l.set i a).Nodup := by
  induction l generalizing i with
  | nil => simp
  | cons b bs ih =>
    rcases List.nodup_cons.1 hl with ⟨hb, hbs⟩
    cases i with
    | zero =>
      refine List.nodup_cons.2 ⟨fun h => ha (List.mem_cons_of_mem _ h), hbs⟩
    | succ i =>
      refine List.nodup_cons.2 ⟨?_, ih hbs (fun h => ha (List.mem_cons_of_mem _ h))⟩
      intro hmem
      rcases mem_set_of_mem hmem with rfl | h
      · exact ha (List.mem_cons_self _ _)
      · exact hb h

/-- Replacing index `i` (in range) trades `l.getD i d` for `a` in the
multiset of mapped values. -/
theorem multiset_map_set (f : α → β) (l : List α) (d : α) {i : Nat}
    (hi : i < l.length) (a : α) :
    (↑((l.set i a).map f) : Multiset β) + {f (l.getD i d)} =
      ↑(l.map f) + {f a} := by
  induction l generalizing i with
  | nil => simp at hi
  | cons b bs ih =>
    cases i with
    | zero =>
      simp only [List.set, List.map_cons, List.getD_cons_zero]
      rw [← Multiset.cons_coe, ← Multiset.cons_coe, ← Multiset.singleton_add,
        ← Multiset.singleton_add]
      abel
    | succ i =>
      simp only [List.set, List.map_cons, List.getD_cons_succ]
      rw [← Multiset.cons_coe, ← Multiset.cons_coe]
      have := ih (by simpa using hi)
      calc (f b ::ₘ ↑((bs.set i a).map f)) + {f (bs.getD i d)}
          = f b ::ₘ (↑((bs.set i a).map f) + {f (bs.getD i d)}) := by
            rw [Multiset.cons_add]
        _ = f b ::ₘ (↑(bs.map f) + {f a}) := by rw [this]
        _ = (f b ::ₘ ↑(bs.map f)) + {f a} := by rw [Multiset.cons_add]

/-- Setting index `i` to an agent that differs only in `g` leaves the list
of positions unchanged. -/
theorem map_v_set_g (ags : List Agent) (i : Nat) (g' : Nat) :
    ((ags.set i { ags.getD i dAgent with g := g' }).map Agent.v) =
      ags.map Agent.v := by
  induction ags generalizing i with
  | nil => simp
  | cons a as ih =>
    cases i with
    | zero => simp [List.set]
    | succ i => simpa [List.set] using ih i

/-- Setting index `i` to an agent that differs only in `v` leaves the list
of goals unchanged. -/
theorem map_g_set_v (ags : List Agent) (i : Nat) (v' : Nat) :
    ((ags.set i { ags.getD i dAgent with v := v' }).map Agent.g) =
      ags.map Agent.g := by
  induction ags generalizing i with
  | nil => simp
  | cons a as ih =>
    cases i with
    | zero => simp [List.set]
    | succ i => simpa [List.set] using ih i

/-- An index whose `getD` yields an agent with `v ≠ g` is in range (the
out-of-range default `dAgent` has `v = g`). -/
theorem lt_length_of_v_ne_g {ags : List Agent} {i : Nat}
    (h : (ags.getD i dAgent).v ≠ (ags.getD i dAgent).g) : i < ags.length := by
  by_contra hle
  rw [List.getD_eq_default _ _ (Nat.le_of_not_lt hle)] at h
  exact h rfl

theorem getLastD_irrel (y : α) (l : List α) (d₁ d₂ : α) :
    (y :: l).getLastD d₁ = (y :: l).getLastD d₂ := by
  induction l generalizing y with
  | nil => rfl
  | cons z zs ih => exact ih z

theorem getLastD_mem (y : α) (l : List α) (d : α) :
    (y :: l).getLastD d ∈ y :: l := by
  induction l generalizing y with
  | nil => simp [List.getLastD]
  | cons z zs ih => exact List.mem_cons_of_mem _ (ih z)

theorem headD_mem {l : List α} (h : l ≠ []) (d : α) : l.headD d ∈ l := by
  cases l with
  | nil => exact absurd rfl h
  | cons x xs => exact List.mem_cons_self _ _

theorem headD_append_of_ne_nil {l : List α} (l' : List α) (d : α)
    (h : l ≠ []) : (l ++ l').headD d = l.headD d := by
  cases l with
  | nil => exact absurd rfl h
  | cons x xs => rfl

theorem headD_reverse (l : List α) (d : α) :
    l.reverse.headD d = l.getLastD d := by
  induction l with
  | nil => rfl
  | cons x xs ih =>
    cases xs with
    | nil => rfl
    | cons y ys =>
      rw [List.getLastD_cons, getLastD_irrel y ys x d, ← ih,
        List.reverse_cons, headD_append_of_ne_nil _ _ (by simp)]

theorem getLastD_reverse (l : List α) (d : α) :
    l.reverse.getLastD d = l.headD d := by
  have h := headD_reverse l.reverse d
  rw [List.reverse_reverse] at h
  exact h.symm

theorem getLastD_not_mem_dropLast {l : List α} (hl : l.Nodup) (d : α)
    (hne : l ≠ []) : l.getLastD d ∉ l.dropLast := by
  induction l with
  | nil => exact absurd rfl hne
  | cons x xs ih =>
    cases xs with
    | nil => simp
    | cons y ys =>
      rcases List.nodup_cons.1 hl with ⟨hx, hxs⟩
      rw [List.getLastD_cons]
      intro hmem
      rw [show (x :: y :: ys).dropLast = x :: (y :: ys).dropLast from rfl] at hmem
      rcases List.mem_cons.1 hmem with heq | hmem'
      · exact hx (by rw [← heq]; exact getLastD_mem y ys x)
      · rw [getLastD_irrel y ys x d] at hmem'
        exact ih hxs (by simp) hmem'

/-- Entries outside `rev.dropLast` are untouched by the rotation loop. -/
theorem rotAux_getD_of_not_mem (rev : List Nat) (ags : List Agent) (k : Nat)
    (hk : k ∉ rev.dropLast) :
    (rotAux ags rev).getD k dAgent = ags.getD k dAgent := by
  induction rev generalizing ags with
  | nil => rfl
  | cons x rest ih =>
    cases rest with
    | nil => rfl
    | cons y rest2 =>
      rw [show (x :: y :: rest2).dropLast = x :: (y :: rest2).dropLast from rfl] at hk
      rw [show rotAux ags (x :: y :: rest2) =
        rotAux (ags.set x { ags.getD x dAgent with
          g := (ags.getD y dAgent).g }) (y :: rest2) from rfl]
      rw [ih _ (fun hmem => hk (List.mem_cons_of_mem _ hmem))]
      exact getD_set_ne (fun heq => hk (by rw [heq]; exact List.mem_cons_self _ _))

theorem rotAux_length (rev : List Nat) (ags : List Agent) :
    (rotAux ags rev).length = ags.length := by
  induction rev generalizing ags with
  | nil => rfl
  | cons x rest ih =>
    cases rest with
    | nil => rfl
    | cons y rest2 => rw [show rotAux ags (x :: y :: rest2) =
        rotAux (ags.set x { ags.getD x dAgent with
          g := (ags.getD y dAgent).g }) (y :: rest2) from rfl,
        ih, List.length_set]

/-- The rotation loop trades the goal at the head of `rev` (the last chain
member) for the goal at the end of `rev` (the first chain member) in the
goal multiset. -/
theorem rotAux_multiset_g (rev : List Nat) (ags : List Agent)
    (hnd : rev.Nodup) (hbd : ∀ x ∈ rev, x < ags.length) (hne : rev ≠ []) :
    (↑((rotAux ags rev).map Agent.g) : Multiset Nat) +
        {(ags.getD (rev.headD 0) dAgent).g} =
      ↑(ags.map Agent.g) + {(ags.getD (rev.getLastD 0) dAgent).g} := by
  induction rev generalizing ags with
  | nil => exact absurd rfl hne
  | cons x rest ih =>
    cases rest with
    | nil => rfl
    | cons y rest2 =>
      rcases List.nodup_cons.1 hnd with ⟨hx, hrest⟩
      have hxy : x ≠ y := fun h => hx (h ▸ List.mem_cons_self _ _)
      have hxlen : x < ags.length := hbd x (List.mem_cons_self _ _)
      set a' : Agent := { ags.getD x dAgent with g := (ags.getD y dAgent).g }
        with ha'
      set ags' := ags.set x a' with hags'
      have hlen' : ags'.length = ags.length := List.length_set ..
      have hbd' : ∀ z ∈ y :: rest2, z < ags'.length := fun z hz =>
        hlen' ▸ hbd z (List.mem_cons_of_mem _ hz)
      have hrec := ih ags' hrest hbd' (by simp)
      have hy' : ags'.getD y dAgent = ags.getD y dAgent :=
        getD_set_ne hxy
      have hL : ags'.getD ((y :: rest2).getLastD 0) dAgent =
          ags.getD ((y :: rest2).getLastD 0) dAgent := by
        refine getD_set_ne (fun h => hx ?_)
        rw [h]
        exact getLastD_mem y rest2 0
      have hset := multiset_map_set Agent.g ags dAgent hxlen a'
      have hrot : rotAux ags (x :: y :: rest2) = rotAux ags' (y :: rest2) :=
        rfl
      have hgoalL : ((x :: y :: rest2).getLastD 0) =
          ((y :: rest2).getLastD 0) := by
        rw [List.getLastD_cons]
        exact getLastD_irrel y rest2 x 0
      rw [hrot, show (x :: y :: rest2).headD 0 = x from rfl, hgoalL]
      rw [show (y :: rest2).headD 0 = y from rfl, hy', hL] at hrec
      -- hrec : rot + {g y} = ags' + {g L}
      -- hset : ags' + {g x} = ags + {g (getD y).g}    (value of a')
      have key : (↑((rotAux ags' (y :: rest2)).map Agent.g) : Multiset Nat) +
          {(ags.getD x dAgent).g} + {(ags.getD y dAgent).g} =
          ↑(ags.map Agent.g) +
            {(ags.getD ((y :: rest2).getLastD 0) dAgent).g} +
            {(ags.getD y dAgent).g} := by
        calc (↑((rotAux ags' (y :: rest2)).map Agent.g) : Multiset Nat) +
            {(ags.getD x dAgent).g} + {(ags.getD y dAgent).g}
            = (↑((rotAux ags' (y :: rest2)).map Agent.g) +
                {(ags.getD y dAgent).g}) + {(ags.getD x dAgent).g} := by
              abel
          _ = (↑(ags'.map Agent.g) +
                {(ags.getD ((y :: rest2).getLastD 0) dAgent).g}) +
                {(ags.getD x dAgent).g} := by rw [hrec]
          _ = (↑(ags'.map Agent.g) + {(ags.getD x dAgent).g}) +
                {(ags.getD ((y :: rest2).getLastD 0) dAgent).g} := by abel
          _ = (↑(ags.map Agent.g) + {a'.g}) +
                {(ags.getD ((y :: rest2).getLastD 0) dAgent).g} := by
              rw [hset]
          _ = ↑(ags.map Agent.g) +
                {(ags.getD ((y :: rest2).getLastD 0) dAgent).g} +
                {(ags.getD y dAgent).g} := by
              rw [ha']
              abel
      exact add_right_cancel key

/-- Rule 4 target rotation preserves the multiset of goals. -/
theorem rotateTargets_multiset_g (ags : List Agent) (ap : List Nat)
    (hnd : ap.Nodup) (hbd : ∀ x ∈ ap, x < ags.length) (hne : ap ≠ []) :
    (↑((rotateTargets ags ap).map Agent.g) : Multiset Nat) =
      ↑(ags.map Agent.g) := by
  have hrevne : ap.reverse ≠ [] := by simpa using hne
  have hrevnd : ap.reverse.Nodup := List.nodup_reverse.2 hnd
  have hrevbd : ∀ x ∈ ap.reverse, x < ags.length := fun x hx =>
    hbd x (List.mem_reverse.1 hx)
  have hf : ap.headD 0 = ap.reverse.getLastD 0 := (getLastD_reverse ap 0).symm
  have hlg : ap.getLastD 0 = ap.reverse.headD 0 := (headD_reverse ap 0).symm
  have hflen : ap.headD 0 < ags.length := hbd _ (headD_mem hne 0)
  have hrot := rotAux_multiset_g ap.reverse ags hrevnd hrevbd hrevne
  have hfpre : (rotAux ags ap.reverse).getD (ap.headD 0) dAgent =
      ags.getD (ap.headD 0) dAgent := by
    refine rotAux_getD_of_not_mem _ _ _ ?_
    rw [hf]
    exact getLastD_not_mem_dropLast hrevnd 0 hrevne
  have hflen' : ap.headD 0 < (rotAux ags ap.reverse).length := by
    rw [rotAux_length]; exact hflen
  have hset := multiset_map_set Agent.g (rotAux ags ap.reverse) dAgent hflen'
    { (rotAux ags ap.reverse).getD (ap.headD 0) dAgent with
      g := (ags.getD (ap.getLastD 0) dAgent).g }
  have hstep : rotateTargets ags ap =
      (rotAux ags ap.reverse).set (ap.headD 0)
        { (rotAux ags ap.reverse).getD (ap.headD 0) dAgent with
          g := (ags.getD (ap.getLastD 0) dAgent).g } := rfl
  have key : (↑((rotateTargets ags ap).map Agent.g) : Multiset Nat) +
      {(ags.getD (ap.headD 0) dAgent).g} =
      ↑(ags.map Agent.g) + {(ags.getD (ap.headD 0) dAgent).g} := by
    calc (↑((rotateTargets ags ap).map Agent.g) : Multiset Nat) +
        {(ags.getD (ap.headD 0) dAgent).g}
        = (↑((rotateTargets ags ap).map Agent.g) : Multiset Nat) +
            {((rotAux ags ap.reverse).getD (ap.headD 0) dAgent).g} := by
          rw [hfpre]
      _ = ↑((rotAux ags ap.reverse).map Agent.g) +
            {(ags.getD (ap.getLastD 0) dAgent).g} := by
          rw [hstep]
          exact hset
      _ = ↑((rotAux ags ap.reverse).map Agent.g) +
            {(ags.getD (ap.reverse.headD 0) dAgent).g} := by rw [← hlg]
      _ = ↑(ags.map Agent.g) +
            {(ags.getD (ap.reverse.getLastD 0) dAgent).g} := hrot
      _ = ↑(ags.map Agent.g) + {(ags.getD (ap.headD 0) dAgent).g} := by
          rw [← hf]
  exact add_right_cancel key

/-- The chain walk only produces index lists that are duplicate-free and in
range (or the empty list, which blocks the rotation). -/
theorem chainWalk_sound (pathFuel : Nat) (nodes : List Node)
    (agents : List Agent) (i : Nat) (walkFuel : Nat) :
    ∀ cur a_p, a_p.Nodup → (∀ x ∈ a_p, x < agents.length) →
      cur < agents.length →
      (chainWalk pathFuel nodes agents i walkFuel cur a_p).1 = [] ∨
        ((chainWalk pathFuel nodes agents i walkFuel cur a_p).1.Nodup ∧
          ∀ x ∈ (chainWalk pathFuel nodes agents i walkFuel cur a_p).1,
            x < agents.length) := by
  induction walkFuel with
  | zero => intro cur a_p _ _ _; exact Or.inl rfl
  | succ walkFuel ih =>
    intro cur a_p hnd hbd hcur
    simp only [chainWalk]
    by_cases h1 : (agents.getD cur dAgent).v = (agents.getD cur dAgent).g
    · rw [if_pos h1]; exact Or.inr ⟨hnd, hbd⟩
    rw [if_neg h1]
    by_cases h2 : (getPathD pathFuel nodes (agents.getD cur dAgent).v
        (agents.getD cur dAgent).g).length < 2
    · rw [if_pos h2]; exact Or.inr ⟨hnd, hbd⟩
    rw [if_neg h2]
    cases hpos : position (fun c => c.v == (getPathD pathFuel nodes
        (agents.getD cur dAgent).v
        (agents.getD cur dAgent).g).getD 1 0) agents with
    | none => simp only [hpos]; exact Or.inr ⟨hnd, hbd⟩
    | some c_idx =>
      simp only [hpos]
      by_cases hmem : cur ∈ a_p
      · rw [if_pos hmem]; exact Or.inl rfl
      rw [if_neg hmem]
      have hnd' : (a_p ++ [cur]).Nodup := by
        rw [List.nodup_append]
        exact ⟨hnd, List.nodup_singleton _,
          fun x hx hx' => hmem (by
            rcases List.mem_singleton.1 hx' with rfl
            exact hx)⟩
      have hbd' : ∀ x ∈ a_p ++ [cur], x < agents.length := by
        intro x hx
        rcases List.mem_append.1 hx with hx | hx
        · exact hbd x hx
        · rcases List.mem_singleton.1 hx with rfl
          exact hcur
      by_cases hci : c_idx = i
      · rw [if_pos hci]; exact Or.inr ⟨hnd', hbd'⟩
      · rw [if_neg hci]
        exact ih c_idx (a_p ++ [cur]) hnd' hbd' (position_lt_length hpos)

/-- The rotation loop writes only `g` fields: positions are unchanged. -/
theorem rotAux_map_v (rev : List Nat) (ags : List Agent) :
    (rotAux ags rev).map Agent.v = ags.map Agent.v := by
  induction rev generalizing ags with
  | nil => rfl
  | cons x rest ih =>
    cases rest with
    | nil => rfl
    | cons y rest2 =>
      rw [show rotAux ags (x :: y :: rest2) =
        rotAux (ags.set x { ags.getD x dAgent with
          g := (ags.getD y dAgent).g }) (y :: rest2) from rfl,
        ih, map_v_set_g]

/-- Rule 4 target rotation leaves every position unchanged. -/
theorem rotateTargets_map_v (ags : List Agent) (ap : List Nat) :
    (rotateTargets ags ap).map Agent.v = ags.map Agent.v := by
  unfold rotateTargets
  rw [map_v_set_g, rotAux_map_v]

/-- The goal-swapping phase never moves an agent. -/
theorem goalPhaseStep_map_v (pathFuel : Nat) (nodes : List Node)
    (ags : List Agent) (i : Nat) :
    (goalPhaseStep pathFuel nodes ags i).map Agent.v = ags.map Agent.v := by
  simp only [goalPhaseStep]
  split
  · rfl
  · split
    · rfl
    · split
      · rfl
      · rename_i j hpos
        split
        · rfl
        · rename_i hij
          split
          · -- Rule 3 goal swap
            rw [show ({ ags.getD j dAgent with
                g := (ags.getD i dAgent).g } : Agent) =
              { (ags.set i { ags.getD i dAgent with
                  g := (ags.getD j dAgent).g }).getD j dAgent with
                g := (ags.getD i dAgent).g } from by
              rw [getD_set_ne hij]]
            rw [map_v_set_g, map_v_set_g]
          · split
            · exact rotateTargets_map_v ..
            · rfl

/-- The movement phase never rewrites a goal. -/
theorem movePhaseStep_map_g (pathFuel : Nat) (nodes : List Node)
    (ags : List Agent) (i : Nat) :
    (movePhaseStep pathFuel nodes ags i).map Agent.g = ags.map Agent.g := by
  simp only [movePhaseStep]
  split
  · rfl
  · split
    · rfl
    · split
      · rename_i j hpos
        split
        · rename_i hij
          split
          · -- mutual swap
            have hij' : i ≠ j := hij
            rw [show ({ ags.getD j dAgent with
                v := (ags.getD i dAgent).v } : Agent) =
              { (ags.set i { ags.getD i dAgent with
                  v := (ags.getD j dAgent).v }).getD j dAgent with
                v := (ags.getD i dAgent).v } from by
              rw [getD_set_ne hij']]
            rw [map_g_set_v, map_g_set_v]
          · rfl
        · rfl
      · rw [map_g_set_v]

/-- One goal-phase index preserves the multiset of goals. -/
theorem goalPhaseStep_multiset_g (pathFuel : Nat) (nodes : List Node)
    (ags : List Agent) (i : Nat) :
    (↑((goalPhaseStep pathFuel nodes ags i).map Agent.g) : Multiset Nat) =
      ↑(ags.map Agent.g) := by
  simp only [goalPhaseStep]
  by_cases h1 : (ags.getD i dAgent).v = (ags.getD i dAgent).g
  · rw [if_pos h1]
  rw [if_neg h1]
  have hi : i < ags.length := lt_length_of_v_ne_g h1
  by_cases h2 : (getPathD pathFuel nodes (ags.getD i dAgent).v
      (ags.getD i dAgent).g).length < 2
  · rw [if_pos h2]
  rw [if_neg h2]
  cases hpos : position (fun b => b.v == (getPathD pathFuel nodes
      (ags.getD i dAgent).v (ags.getD i dAgent).g).getD 1 0) ags with
  | none => simp only [hpos]
  | some j =>
    simp only [hpos]
    have hj : j < ags.length := position_lt_length hpos
    by_cases hij : i = j
    · rw [if_pos hij]
    rw [if_neg hij]
    by_cases h3 : (ags.getD j dAgent).v = (ags.getD j dAgent).g
    · -- Rule 3: swap the two goals
      rw [if_pos h3]
      have hset1 := multiset_map_set Agent.g ags dAgent hi
        { ags.getD i dAgent with g := (ags.getD j dAgent).g }
      have hj' : j < (ags.set i { ags.getD i dAgent with
          g := (ags.getD j dAgent).g }).length := by
        rw [List.length_set]; exact hj
      have hset2 := multiset_map_set Agent.g
        (ags.set i { ags.getD i dAgent with g := (ags.getD j dAgent).g })
        dAgent hj' { ags.getD j dAgent with g := (ags.getD i dAgent).g }
      rw [getD_set_ne hij] at hset2
      have key : (↑(((ags.set i { ags.getD i dAgent with
          g := (ags.getD j dAgent).g }).set j { ags.getD j dAgent with
          g := (ags.getD i dAgent).g }).map Agent.g) : Multiset Nat) +
          {(ags.getD j dAgent).g} + {(ags.getD i dAgent).g} =
          ↑(ags.map Agent.g) + {(ags.getD j dAgent).g} +
            {(ags.getD i dAgent).g} := by
        calc (↑(((ags.set i { ags.getD i dAgent with
              g := (ags.getD j dAgent).g }).set j { ags.getD j dAgent with
              g := (ags.getD i dAgent).g }).map Agent.g) : Multiset Nat) +
              {(ags.getD j dAgent).g} + {(ags.getD i dAgent).g}
            = (↑((ags.set i { ags.getD i dAgent with
                g := (ags.getD j dAgent).g }).map Agent.g) +
                {(ags.getD i dAgent).g}) + {(ags.getD i dAgent).g} := by
              rw [hset2]
          _ = (↑((ags.set i { ags.getD i dAgent with
                g := (ags.getD j dAgent).g }).map Agent.g) +
                {(ags.getD i dAgent).g}) + {(ags.getD i dAgent).g} := rfl
          _ = ↑(ags.map Agent.g) + {(ags.getD j dAgent).g} +
                {(ags.getD i dAgent).g} := by rw [hset1]
      exact add_right_cancel (add_right_cancel
        (by rwa [add_assoc, add_assoc, add_comm
          ({(ags.getD j dAgent).g} : Multiset Nat), ← add_assoc,
          ← add_assoc] at key))
    · rw [if_neg h3]
      by_cases h4 : ((chainWalk pathFuel nodes ags i (ags.length + 1)
          j [i]).2 : Prop) ∧ 1 < (chainWalk pathFuel nodes ags i
          (ags.length + 1) j [i]).1.length
      · rw [if_pos h4]
        have hsound := chainWalk_sound pathFuel nodes ags i
          (ags.length + 1) j [i] (List.nodup_singleton i)
          (by intro x hx; rcases List.mem_singleton.1 hx with rfl; exact hi)
          hj
        rcases hsound with hempty | ⟨hnd, hbd⟩
        · rw [hempty] at h4
          simp at h4
        · exact rotateTargets_multiset_g ags _ hnd hbd
            (by
              intro hemp
              rw [hemp] at h4
              simp at h4)
      · rw [if_neg h4]

/-- One movement-phase index keeps the positions duplicate-free. -/
theorem movePhaseStep_nodup (pathFuel : Nat) (nodes : List Node)
    {ags : List Agent} (i : Nat) (h : (ags.map Agent.v).Nodup) :
    ((movePhaseStep pathFuel nodes ags i).map Agent.v).Nodup := by
  simp only [movePhaseStep]
  by_cases h1 : (ags.getD i dAgent).v = (ags.getD i dAgent).g
  · rw [if_pos h1]; exact h
  rw [if_neg h1]
  have hi : i < ags.length := lt_length_of_v_ne_g h1
  by_cases h2 : (getPathD pathFuel nodes (ags.getD i dAgent).v
      (ags.getD i dAgent).g).length < 2
  · rw [if_pos h2]; exact h
  rw [if_neg h2]
  cases hpos : position (fun b => b.v == (getPathD pathFuel nodes
      (ags.getD i dAgent).v (ags.getD i dAgent).g).getD 1 0) ags with
  | some j =>
    simp only [hpos]
    by_cases hij : i ≠ j
    · rw [if_pos hij]
      have hj : j < ags.length := position_lt_length hpos
      by_cases h3 : 2 ≤ (getPathD pathFuel nodes (ags.getD j dAgent).v
            (ags.getD j dAgent).g).length ∧
          (getPathD pathFuel nodes (ags.getD j dAgent).v
            (ags.getD j dAgent).g).getD 1 0 = (ags.getD i dAgent).v
      · rw [if_pos h3]
        -- mutual swap: the multiset of positions is unchanged
        have hset1 := multiset_map_set Agent.v ags dAgent hi
          { ags.getD i dAgent with v := (ags.getD j dAgent).v }
        have hj' : j < (ags.set i { ags.getD i dAgent with
            v := (ags.getD j dAgent).v }).length := by
          rw [List.length_set]; exact hj
        have hset2 := multiset_map_set Agent.v
          (ags.set i { ags.getD i dAgent with v := (ags.getD j dAgent).v })
          dAgent hj' { ags.getD j dAgent with v := (ags.getD i dAgent).v }
        rw [getD_set_ne hij] at hset2
        have key : (↑(((ags.set i { ags.getD i dAgent with
            v := (ags.getD j dAgent).v }).set j { ags.getD j dAgent with
            v := (ags.getD i dAgent).v }).map Agent.v) : Multiset Nat) +
            {(ags.getD j dAgent).v} =
            ↑(ags.map Agent.v) + {(ags.getD j dAgent).v} := by
          calc (↑(((ags.set i { ags.getD i dAgent with
                v := (ags.getD j dAgent).v }).set j { ags.getD j dAgent with
                v := (ags.getD i dAgent).v }).map Agent.v) : Multiset Nat) +
                {(ags.getD j dAgent).v}
              = ↑((ags.set i { ags.getD i dAgent with
                  v := (ags.getD j dAgent).v }).map Agent.v) +
                  {(ags.getD i dAgent).v} := hset2
            _ = ↑(ags.map Agent.v) + {(ags.getD j dAgent).v} := hset1
        have hperm : List.Perm (((ags.set i { ags.getD i dAgent with
            v := (ags.getD j dAgent).v }).set j { ags.getD j dAgent with
            v := (ags.getD i dAgent).v }).map Agent.v) (ags.map Agent.v) :=
          Multiset.coe_eq_coe.1 (add_right_cancel key)
        exact hperm.nodup_iff.2 h
      · rw [if_neg h3]; exact h
    · rw [if_neg hij]; exact h
  | none =>
    simp only [hpos]
    -- the desired cell is free: a fresh value replaces `v i`
    have hfresh : ∀ b ∈ ags, b.v ≠ (getPathD pathFuel nodes
        (ags.getD i dAgent).v (ags.getD i dAgent).g).getD 1 0 := by
      intro b hb
      have := position_eq_none hpos b hb
      simpa using this
    rw [List.map_set]
    refine nodup_set_of_not_mem h ?_
    intro hmem
    rcases List.mem_map.1 hmem with ⟨b, hb, hbv⟩
    exact hfresh b hb hbv

theorem foldl_goalPhase_map_v (pathFuel : Nat) (nodes : List Node) :
    ∀ (l : List Nat) (ags : List Agent),
      ((l.foldl (goalPhaseStep pathFuel nodes) ags).map Agent.v) =
        ags.map Agent.v := by
  intro l
  induction l with
  | nil => intro ags; rfl
  | cons x xs ih =>
    intro ags
    rw [List.foldl_cons, ih, goalPhaseStep_map_v]

theorem foldl_goalPhase_multiset_g (pathFuel : Nat) (nodes : List Node) :
    ∀ (l : List Nat) (ags : List Agent),
      (↑((l.foldl (goalPhaseStep pathFuel nodes) ags).map Agent.g) :
        Multiset Nat) = ↑(ags.map Agent.g) := by
  intro l
  induction l with
  | nil => intro ags; rfl
  | cons x xs ih =>
    intro ags
    rw [List.foldl_cons, ih, goalPhaseStep_multiset_g]

theorem foldl_movePhase_map_g (pathFuel : Nat) (nodes : List Node) :
    ∀ (l : List Nat) (ags : List Agent),
      ((l.foldl (movePhaseStep pathFuel nodes) ags).map Agent.g) =
        ags.map Agent.g := by
  intro l
  induction l with
  | nil => intro ags; rfl
  | cons x xs ih =>
    intro ags
    rw [List.foldl_cons, ih, movePhaseStep_map_g]

theorem foldl_movePhase_nodup (pathFuel : Nat) (nodes : List Node) :
    ∀ (l : List Nat) (ags : List Agent), (ags.map Agent.v).Nodup →
      ((l.foldl (movePhaseStep pathFuel nodes) ags).map Agent.v).Nodup := by
  intro l
  induction l with
  | nil => intro ags h; exact h
  | cons x xs ih =>
    intro ags h
    rw [List.foldl_cons]
    exact ih _ (movePhaseStep_nodup pathFuel nodes x h)

/-- **C1.** For every node graph and every array of agents whose current
positions are pairwise distinct, one call of `tswap_step` leaves the
positions pairwise distinct: the movement phase moves an agent only onto a
cell no agent occupies, and a mutual swap merely exchanges two positions;
the goal-swapping phase never writes a position. -/
theorem tswap_step_no_collision (pathFuel : Nat) (nodes : List Node)
    (agents : List Agent) (h : (agents.map Agent.v).Nodup) :
    ((tswap_step pathFuel nodes agents).map Agent.v).Nodup := by
  unfold tswap_step
  refine foldl_movePhase_nodup pathFuel nodes _ _ ?_
  rw [foldl_goalPhase_map_v]
  exact h

theorem tswap_step_no_collision_witness :
    (([⟨0, 0, 1⟩, ⟨1, 1, 0⟩] : List Agent).map Agent.v).Nodup ∧
    ((tswap_step 10 [⟨0, (0, 0), [1]⟩, ⟨1, (1, 0), [0]⟩]
      [⟨0, 0, 1⟩, ⟨1, 1, 0⟩]).map Agent.v).Nodup :=
  ⟨by decide, tswap_step_no_collision 10 _ _ (by decide)⟩

/-- **C2.** For every node graph and every array of agents, one call of
`tswap_step` leaves the multiset of goals unchanged: Rule 3 exchanges
exactly two goals, Rule 4 cyclically permutes the goals of the detected
(duplicate-free) chain, and the movement phase never writes a goal. -/
theorem tswap_step_goal_multiset (pathFuel : Nat) (nodes : List Node)
    (agents : List Agent) :
    (↑((tswap_step pathFuel nodes agents).map Agent.g) : Multiset Nat) =
      ↑(agents.map Agent.g) := by
  unfold tswap_step
  rw [foldl_movePhase_map_g, foldl_goalPhase_multiset_g]

/-! ### C8 — the tie-breaking order of the static A* open list -/

/-- **C8, counterexample.** The claim says that among entries with equal
`f` the one with *larger* `g` is popped first.  For
`a = ⟨node 0, g 2, f 5⟩` and `b = ⟨node 1, g 1, f 5⟩` the claim predicts
`a` pops first, but `b` compares strictly greater in the embedded `Ord`
(the code prefers *smaller* `g`), so any `BinaryHeap` pops `b` first. -/
theorem astar_ord_claim_counterexample :
    AstarNode.cmp ⟨1, 1, 5⟩ ⟨0, 2, 5⟩ = .gt ∧
    heapPop AstarNode.cmp [⟨0, 2, 5⟩, ⟨1, 1, 5⟩] =
      some (⟨1, 1, 5⟩, [⟨0, 2, 5⟩]) ∧
    AstarNode.cmp ⟨0, 1, 5⟩ ⟨1, 1, 5⟩ = .eq := by
  refine ⟨?_, ?_, ?_⟩ <;> rfl

/-- **C8, amended.** The open list pops in order `f` ascending and, among
equal `f`, `g` *ascending*; entries with equal `f` and `g` compare
`Ordering.eq` regardless of `node_id`, so there is no `node_id` tie-break
(the pop order among them is the heap's choice).  Formally: `a` is
strictly greater than `b` (popped first) iff `a.f_cost < b.f_cost` or
`f` ties and `a.g_cost < b.g_cost`; and the comparison is `eq` iff both
components tie. -/
theorem astar_ord_amended (a b : AstarNode) :
    (AstarNode.cmp a b = .gt ↔
      (a.f_cost < b.f_cost ∨ (a.f_cost = b.f_cost ∧ a.g_cost < b.g_cost))) ∧
    (AstarNode.cmp a b = .eq ↔
      (a.f_cost = b.f_cost ∧ a.g_cost = b.g_cost)) := by
  unfold AstarNode.cmp
  rcases Nat.lt_trichotomy a.f_cost b.f_cost with hf | hf | hf
  · rw [show compare b.f_cost a.f_cost = .gt from
      (Nat.compare_eq_gt).2 hf]
    simp [Ordering.then, hf, Nat.ne_of_lt hf]
  · rw [show compare b.f_cost a.f_cost = .eq from
      (Nat.compare_eq_eq).2 hf.symm]
    rcases Nat.lt_trichotomy a.g_cost b.g_cost with hg | hg | hg
    · rw [show compare b.g_cost a.g_cost = .gt from
        (Nat.compare_eq_gt).2 hg]
      simp [Ordering.then, hf, hg, Nat.ne_of_lt hg]
    · rw [show compare b.g_cost a.g_cost = .eq from
        (Nat.compare_eq_eq).2 hg.symm]
      simp [Ordering.then, hf, hg]
    · rw [show compare b.g_cost a.g_cost = .lt from
        (Nat.compare_eq_lt).2 hg]
      simp [Ordering.then, hf, Nat.lt_asymm hg, Nat.ne_of_gt hg,
        Nat.lt_irrefl]
  · rw [show compare b.f_cost a.f_cost = .lt from
      (Nat.compare_eq_lt).2 hf]
    simp [Ordering.then, Nat.lt_asymm hf, Nat.ne_of_gt hf]

/-! ### C4 — the `get_path` fallback when no path exists -/

/-- Graph reachability along the `neighbors` adjacency used by `get_path`. -/
inductive Reaches (nodes : List Node) (start : Nat) : Nat → Prop
  | refl : Reaches nodes start start
  | tail {u v : Nat} : Reaches nodes start u →
      v ∈ (nodes.getD u dNode).neighbors → Reaches nodes start v

/-- Invariant propagation through the neighbor-relaxation fold of one
`get_path` loop iteration. -/
theorem relaxFold_inv (nodes : List Node) (goal start : Nat)
    (current : AstarNode) (fuel : Nat)
    (hcur : current.g_cost + fuel + 1 < usizeMax)
    (hgoal : current.node_id ≠ goal) :
    ∀ (rem : List Nat) (st' : PathSearchState),
    (∃ gv, (start, gv) ∈ st'.gScore) →
    (∀ e ∈ st'.openList, e.g_cost + fuel < usizeMax) →
    (∀ p ∈ st'.gScore,
      (∃ e ∈ st'.openList, e.node_id = p.1) ∨
      (p.1 ≠ goal ∧ ∀ nb ∈ (nodes.getD p.1 dNode).neighbors,
        ∃ gv, (nb, gv) ∈ st'.gScore) ∨
      (p.1 = current.node_id ∧
        ∀ nb ∈ (nodes.getD current.node_id dNode).neighbors,
          (∃ gv, (nb, gv) ∈ st'.gScore) ∨ nb ∈ rem)) →
    (∃ gv, (start, gv) ∈
        (rem.foldl (relaxNode nodes goal current) st').gScore) ∧
    (∀ e ∈ (rem.foldl (relaxNode nodes goal current) st').openList,
        e.g_cost + fuel < usizeMax) ∧
    (∀ p ∈ (rem.foldl (relaxNode nodes goal current) st').gScore,
      (∃ e ∈ (rem.foldl (relaxNode nodes goal current) st').openList,
        e.node_id = p.1) ∨
      (p.1 ≠ goal ∧ ∀ nb ∈ (nodes.getD p.1 dNode).neighbors,
        ∃ gv, (nb, gv) ∈
          (rem.foldl (relaxNode nodes goal current) st').gScore)) := by
  intro rem
  induction rem with
  | nil =>
    intro st' hstart hgb hinv
    refine ⟨hstart, hgb, ?_⟩
    intro p hp
    rcases hinv p hp with h | ⟨hng, hcl⟩ | ⟨hpc, hall⟩
    · exact Or.inl h
    · exact Or.inr ⟨hng, hcl⟩
    · refine Or.inr ⟨by rw [hpc]; exact hgoal, ?_⟩
      intro nb hnb
      rcases hall nb (by rw [← hpc]; exact hnb) with h | h
      · exact h
      · simp at h
  | cons nb rem' ih =>
    intro st' hstart hgb hinv
    rw [List.foldl_cons]
    by_cases himp : current.g_cost + 1 <
        (st'.gScore.lookup nb).getD usizeMax
    · -- relaxation improves `nb`: push it
      have hrelax : relaxNode nodes goal current st' nb =
          { openList := ⟨nb, current.g_cost + 1, current.g_cost + 1 +
              nodeHeuristic nodes goal nb⟩ :: st'.openList,
            cameFrom := (nb, current.node_id) :: st'.cameFrom,
            gScore := (nb, current.g_cost + 1) :: st'.gScore } := by
        unfold relaxNode
        rw [if_pos himp]
      rw [hrelax]
      refine ih _ ?_ ?_ ?_
      · rcases hstart with ⟨gv, hgv⟩
        exact ⟨gv, List.mem_cons_of_mem _ hgv⟩
      · intro e he
        rcases List.mem_cons.1 he with rfl | he'
        · simpa using Nat.lt_of_succ_le (by omega)
        · exact hgb e he'
      · intro p hp
        rcases List.mem_cons.1 hp with rfl | hp'
        · exact Or.inl ⟨_, List.mem_cons_self _ _, rfl⟩
        · rcases hinv p hp' with ⟨e, he, hid⟩ | ⟨hng, hcl⟩ | ⟨hpc, hall⟩
          · exact Or.inl ⟨e, List.mem_cons_of_mem _ he, hid⟩
          · refine Or.inr (Or.inl ⟨hng, ?_⟩)
            intro nb' hnb'
            rcases hcl nb' hnb' with ⟨gv, hgv⟩
            exact ⟨gv, List.mem_cons_of_mem _ hgv⟩
          · refine Or.inr (Or.inr ⟨hpc, ?_⟩)
            intro nb' hnb'
            rcases hall nb' hnb' with ⟨gv, hgv⟩ | hmem
            · exact Or.inl ⟨gv, List.mem_cons_of_mem _ hgv⟩
            · rcases List.mem_cons.1 hmem with rfl | hmem'
              · exact Or.inl ⟨current.g_cost + 1, List.mem_cons_self _ _⟩
              · exact Or.inr hmem'
    · -- no improvement: `nb` already has a (not larger) score
      have hrelax : relaxNode nodes goal current st' nb = st' := by
        unfold relaxNode
        rw [if_neg himp]
      have hkey : ∃ gv, (nb, gv) ∈ st'.gScore := by
        cases hlk : st'.gScore.lookup nb with
        | none =>
          exfalso
          rw [hlk] at himp
          simp only [Option.getD_none] at himp
          exact himp (by omega)
        | some b => exact ⟨b, lookup_mem hlk⟩
      rw [hrelax]
      refine ih _ hstart hgb ?_
      intro p hp
      rcases hinv p hp with h | h | ⟨hpc, hall⟩
      · exact Or.inl h
      · exact Or.inr (Or.inl h)
      · refine Or.inr (Or.inr ⟨hpc, ?_⟩)
        intro nb' hnb'
        rcases hall nb' hnb' with h | hmem
        · exact Or.inl h
        · rcases List.mem_cons.1 hmem with rfl | hmem'
          · exact Or.inl hkey
          · exact Or.inr hmem'

/-- If the `get_path` search loop exhausts its open list, then the goal is
unreachable from `start`: the set of scored nodes contains `start`, is
closed under neighbors, and never contained `goal`. -/
theorem getPathLoop_exhausted (nodes : List Node) (goal start : Nat) :
    ∀ (fuel : Nat) (st : PathSearchState),
    (∃ gv, (start, gv) ∈ st.gScore) →
    (∀ e ∈ st.openList, e.g_cost + fuel < usizeMax) →
    (∀ p ∈ st.gScore,
      (∃ e ∈ st.openList, e.node_id = p.1) ∨
      (p.1 ≠ goal ∧ ∀ nb ∈ (nodes.getD p.1 dNode).neighbors,
        ∃ gv, (nb, gv) ∈ st.gScore)) →
    getPathLoop nodes goal fuel st = some none →
    ¬ Reaches nodes start goal := by
  intro fuel
  induction fuel with
  | zero => intro st _ _ _ h; simp [getPathLoop] at h
  | succ fuel ih =>
    intro st hstart hgb hinv hrun
    rw [getPathLoop] at hrun
    cases hpop : heapPop AstarNode.cmp st.openList with
    | none =>
      -- open list empty: the scored set is neighbor-closed and omits goal
      have hempty : st.openList = [] := heapPop_eq_none _ hpop
      intro hreach
      have hmem : ∀ v, Reaches nodes start v →
          ∃ gv, (v, gv) ∈ st.gScore := by
        intro v hv
        induction hv with
        | refl => exact hstart
        | tail hu hnb ihv =>
          rcases ihv with ⟨gv, hgv⟩
          rcases hinv _ hgv with ⟨e, he, _⟩ | ⟨_, hcl⟩
          · rw [hempty] at he; simp at he
          · exact hcl _ hnb
      rcases hmem goal hreach with ⟨gv, hgv⟩
      rcases hinv _ hgv with ⟨e, he, _⟩ | ⟨hng, _⟩
      · rw [hempty] at he; simp at he
      · exact hng rfl
    | some pr =>
      rcases pr with ⟨current, rest⟩
      rw [hpop] at hrun
      have hrun' : (if current.node_id = goal then
          some (some (reconstructIds st.cameFrom current.node_id))
        else getPathLoop nodes goal fuel
          ((nodes.getD current.node_id dNode).neighbors.foldl
            (relaxNode nodes goal current)
            ⟨rest, st.cameFrom, st.gScore⟩)) = some none := hrun
      clear hrun
      by_cases hgoal : current.node_id = goal
      · rw [if_pos hgoal] at hrun'
        simp at hrun'
      · rw [if_neg hgoal] at hrun'
        have hcurmem : current ∈ st.openList :=
          (heapPop_perm _ hpop).mem_iff.1 (List.mem_cons_self _ _)
        have hcur : current.g_cost + fuel + 1 < usizeMax := by
          have := hgb current hcurmem
          omega
        have hrest : ∀ e ∈ rest, e.g_cost + fuel < usizeMax := by
          intro e he
          have : e ∈ st.openList :=
            (heapPop_perm _ hpop).mem_iff.1 (List.mem_cons_of_mem _ he)
          have := hgb e this
          omega
        have hinit : ∀ p ∈ st.gScore,
            (∃ e ∈ rest, e.node_id = p.1) ∨
            (p.1 ≠ goal ∧ ∀ nb ∈ (nodes.getD p.1 dNode).neighbors,
              ∃ gv, (nb, gv) ∈ st.gScore) ∨
            (p.1 = current.node_id ∧
              ∀ nb ∈ (nodes.getD current.node_id dNode).neighbors,
                (∃ gv, (nb, gv) ∈ st.gScore) ∨
                  nb ∈ (nodes.getD current.node_id dNode).neighbors) := by
          intro p hp
          rcases hinv p hp with ⟨e, he, hid⟩ | h
          · have hec : e ∈ current :: rest :=
              (heapPop_perm _ hpop).mem_iff.2 he
            rcases List.mem_cons.1 hec with rfl | he'
            · refine Or.inr (Or.inr ⟨hid.symm, ?_⟩)
              intro nb hnb
              exact Or.inr hnb
            · exact Or.inl ⟨e, he', hid⟩
          · exact Or.inr (Or.inl h)
        have hfold' := relaxFold_inv nodes goal start current fuel hcur
          hgoal (nodes.getD current.node_id dNode).neighbors
          ⟨rest, st.cameFrom, st.gScore⟩ hstart hrest hinit
        exact ih _ hfold'.1 hfold'.2.1 hfold'.2.2 hrun'

/-- Characterisation of the fallback scan: starting from `(b₀, h b₀)` the
fold returns a pair `(b, h b)` whose heuristic is minimal among `b₀` and
the scanned neighbors. -/
theorem bestNeighborFoldAux_spec (nodes : List Node) (goal : Nat) :
    ∀ (l : List Nat) (b₀ : Nat),
    ((l.foldl (fun bm neighbor_id =>
        let dist := nodeHeuristic nodes goal neighbor_id
        if dist < bm.2 then (neighbor_id, dist) else bm)
      (b₀, nodeHeuristic nodes goal b₀)).2 =
      nodeHeuristic nodes goal
        (l.foldl (fun bm neighbor_id =>
          let dist := nodeHeuristic nodes goal neighbor_id
          if dist < bm.2 then (neighbor_id, dist) else bm)
        (b₀, nodeHeuristic nodes goal b₀)).1) ∧
    ((l.foldl (fun bm neighbor_id =>
        let dist := nodeHeuristic nodes goal neighbor_id
        if dist < bm.2 then (neighbor_id, dist) else bm)
      (b₀, nodeHeuristic nodes goal b₀)).1 = b₀ ∨
      (l.foldl (fun bm neighbor_id =>
        let dist := nodeHeuristic nodes goal neighbor_id
        if dist < bm.2 then (neighbor_id, dist) else bm)
      (b₀, nodeHeuristic nodes goal b₀)).1 ∈ l) ∧
    ((l.foldl (fun bm neighbor_id =>
        let dist := nodeHeuristic nodes goal neighbor_id
        if dist < bm.2 then (neighbor_id, dist) else bm)
      (b₀, nodeHeuristic nodes goal b₀)).2 ≤ nodeHeuristic nodes goal b₀) ∧
    (∀ nb ∈ l,
      (l.foldl (fun bm neighbor_id =>
        let dist := nodeHeuristic nodes goal neighbor_id
        if dist < bm.2 then (neighbor_id, dist) else bm)
      (b₀, nodeHeuristic nodes goal b₀)).2 ≤ nodeHeuristic nodes goal nb) := by
  -- generalize the accumulator
  suffices h : ∀ (l : List Nat) (b₀ d₀ : Nat), d₀ = nodeHeuristic nodes goal b₀ →
      ((l.foldl (fun bm neighbor_id =>
          let dist := nodeHeuristic nodes goal neighbor_id
          if dist < bm.2 then (neighbor_id, dist) else bm) (b₀, d₀)).2 =
        nodeHeuristic nodes goal
          (l.foldl (fun bm neighbor_id =>
            let dist := nodeHeuristic nodes goal neighbor_id
            if dist < bm.2 then (neighbor_id, dist) else bm) (b₀, d₀)).1) ∧
      ((l.foldl (fun bm neighbor_id =>
          let dist := nodeHeuristic nodes goal neighbor_id
          if dist < bm.2 then (neighbor_id, dist) else bm) (b₀, d₀)).1 = b₀ ∨
        (l.foldl (fun bm neighbor_id =>
          let dist := nodeHeuristic nodes goal neighbor_id
          if dist < bm.2 then (neighbor_id, dist) else bm) (b₀, d₀)).1 ∈ l) ∧
      ((l.foldl (fun bm neighbor_id =>
          let dist := nodeHeuristic nodes goal neighbor_id
          if dist < bm.2 then (neighbor_id, dist) else bm) (b₀, d₀)).2 ≤ d₀) ∧
      (∀ nb ∈ l,
        (l.foldl (fun bm neighbor_id =>
          let dist := nodeHeuristic nodes goal neighbor_id
          if dist < bm.2 then (neighbor_id, dist) else bm) (b₀, d₀)).2 ≤
          nodeHeuristic nodes goal nb) by
    intro l b₀
    exact h l b₀ _ rfl
  intro l
  induction l with
  | nil =>
    intro b₀ d₀ hd
    refine ⟨hd, Or.inl rfl, Nat.le_refl _, ?_⟩
    intro nb hnb
    simp at hnb
  | cons nb l ih =>
    intro b₀ d₀ hd
    rw [List.foldl_cons]
    by_cases hlt : nodeHeuristic nodes goal nb < d₀
    · simp only [hlt, if_pos]
      rcases ih nb (nodeHeuristic nodes goal nb) rfl with ⟨h1, h2, h3, h4⟩
      refine ⟨h1, ?_, le_trans h3 (Nat.le_of_lt hlt), ?_⟩
      · rcases h2 with h2 | h2
        · exact Or.inr (by rw [h2]; exact List.mem_cons_self _ _)
        · exact Or.inr (List.mem_cons_of_mem _ h2)
      · intro nb' hnb'
        rcases List.mem_cons.1 hnb' with rfl | hnb''
        · exact h3
        · exact h4 nb' hnb''
    · simp only [hlt, if_neg, if_false]
      rcases ih b₀ d₀ hd with ⟨h1, h2, h3, h4⟩
      refine ⟨h1, ?_, h3, ?_⟩
      · rcases h2 with h2 | h2
        · exact Or.inl h2
        · exact Or.inr (List.mem_cons_of_mem _ h2)
      · intro nb' hnb'
        rcases List.mem_cons.1 hnb' with rfl | hnb''
        · exact le_trans h3 (Nat.le_of_not_lt hlt)
        · exact h4 nb' hnb''

/-- **C4, counterexample.** On the graph with two isolated nodes `0` and
`1`, no path from `0` to `1` exists and node `0` has no neighbors, yet
`get_path` returns the two-element `[0, 0]` (the fallback always has two
elements, with `best_neighbor = start`), not the claimed one-element
`[0]`. -/
theorem get_path_fallback_counterexample :
    (¬ Reaches [⟨0, (0, 0), []⟩, ⟨1, (1, 0), []⟩] 0 1) ∧
    (([⟨0, (0, 0), []⟩, ⟨1, (1, 0), []⟩] : List Node).getD 0 dNode).neighbors
      = [] ∧
    get_path 10 [⟨0, (0, 0), []⟩, ⟨1, (1, 0), []⟩] 0 1 = some [0, 0] ∧
    get_path 10 [⟨0, (0, 0), []⟩, ⟨1, (1, 0), []⟩] 0 1 ≠ some [0] := by
  refine ⟨?_, rfl, by decide, by decide⟩
  exact getPathLoop_exhausted [⟨0, (0, 0), []⟩, ⟨1, (1, 0), []⟩] 1 0 10
    { openList := [⟨0, 0, 1⟩], cameFrom := [], gScore := [(0, 0)] }
    ⟨0, by decide⟩ (by decide)
    (by
      intro p hp
      rcases List.mem_singleton.1 hp with rfl
      exact Or.inl ⟨⟨0, 0, 1⟩, List.mem_singleton.2 rfl, rfl⟩)
    (by decide)

/-- **C4, amended.** Whenever the A* search loop exhausts its open list
without reaching the goal — which happens only if no path from `start` to
`goal` exists, as the theorem also derives — `get_path` returns the
two-element sequence `[start, b]` where `b` minimises the Manhattan
heuristic among `start` *itself* and the neighbors of `start` (a neighbor
is chosen only when strictly closer than `start`); in particular when
`start` has no neighbors, `b = start` and the result is `[start, start]`,
not `[start]`. -/
theorem get_path_fallback (fuel : Nat) (nodes : List Node)
    (start goal : Nat) (hne : start ≠ goal) (hfuel : fuel < usizeMax)
    (hex : getPathLoop nodes goal fuel
      { openList := [⟨start, 0, nodeHeuristic nodes goal start⟩],
        cameFrom := [], gScore := [(start, 0)] } = some none) :
    ¬ Reaches nodes start goal ∧
    get_path fuel nodes start goal =
      some [start, (bestNeighborFold nodes goal start).1] ∧
    ((bestNeighborFold nodes goal start).1 = start ∨
      (bestNeighborFold nodes goal start).1 ∈
        (nodes.getD start dNode).neighbors) ∧
    nodeHeuristic nodes goal (bestNeighborFold nodes goal start).1 ≤
      nodeHeuristic nodes goal start ∧
    (∀ nb ∈ (nodes.getD start dNode).neighbors,
      nodeHeuristic nodes goal (bestNeighborFold nodes goal start).1 ≤
        nodeHeuristic nodes goal nb) := by
  have hunreach := getPathLoop_exhausted nodes goal start fuel
    { openList := [⟨start, 0, nodeHeuristic nodes goal start⟩],
      cameFrom := [], gScore := [(start, 0)] }
    ⟨0, List.mem_singleton.2 rfl⟩
    (by
      intro e he
      rcases List.mem_singleton.1 he with rfl
      simpa using hfuel)
    (by
      intro p hp
      rcases List.mem_singleton.1 hp with rfl
      exact Or.inl ⟨⟨start, 0, nodeHeuristic nodes goal start⟩,
        List.mem_singleton.2 rfl, rfl⟩)
    hex
  have hspec := bestNeighborFoldAux_spec nodes goal
    (nodes.getD start dNode).neighbors start
  refine ⟨hunreach, ?_, ?_, ?_, ?_⟩
  · unfold get_path
    rw [if_neg hne, hex]
  · exact hspec.2.1
  · rw [show nodeHeuristic nodes goal (bestNeighborFold nodes goal start).1
        = (bestNeighborFold nodes goal start).2 from hspec.1.symm]
    exact hspec.2.2.1
  · intro nb hnb
    rw [show nodeHeuristic nodes goal (bestNeighborFold nodes goal start).1
        = (bestNeighborFold nodes goal start).2 from hspec.1.symm]
    exact hspec.2.2.2 nb hnb

theorem get_path_fallback_witness :
    ¬ Reaches [⟨0, (0, 0), []⟩, ⟨1, (1, 0), []⟩] 0 1 ∧
    get_path 10 [⟨0, (0, 0), []⟩, ⟨1, (1, 0), []⟩] 0 1 =
      some [0, (bestNeighborFold [⟨0, (0, 0), []⟩, ⟨1, (1, 0), []⟩] 1 0).1] :=
  have h := get_path_fallback 10 [⟨0, (0, 0), []⟩, ⟨1, (1, 0), []⟩] 0 1
    (by decide) (by decide) (by decide)
  ⟨h.1, h.2.1⟩

/-! ### Time-expanded A* — `astar_with_reservation` in `src/algorithm/a_star.rs`

`map::map::{WIDTH, HEIGHT}` live in a module that is not part of the
sources; they are compile-time grid-dimension constants and are modelled
as the explicit parameters `W`, `H`.  Node and edge reservations
(`HashSet`s in Rust) are modelled as lists queried with `contains`. -/

/-- `struct TimeNode { pos, g, f }` — `g` doubles as the time. -/
structure TimeNode where
  pos : Point
  g : Nat
  f : Nat
  deriving DecidableEq, Repr

/-- The `Ord` instance of `TimeNode` (same shape as `AstarNode`):
`other.f.cmp(&self.f).then_with(|| other.g.cmp(&self.g))`. -/
def TimeNode.cmp (self other : TimeNode) : Ordering :=
  (compare other.f self.f).then (compare other.g self.g)

/-- `heuristic(a, b)` from `a_star.rs` — the Manhattan distance. -/
def heuristic (a b : Point) : Nat :=
  ((a.1 : Int) - (b.1 : Int)).natAbs + ((a.2 : Int) - (b.2 : Int)).natAbs

/-- The five moves: right, left, down, up, and the `(0,0)` WAIT. -/
def dirs : List (Int × Int) := [(1, 0), (-1, 0), (0, 1), (0, -1), (0, 0)]

/-- Grid cell access `grid[y][x]`; the default `'@'` stands in for the
out-of-range panic, which the in-bounds checks rule out. -/
def cellAt (grid : List (List Char)) (y x : Nat) : Char :=
  (grid.getD y []).getD x '@'

/-- State threaded through the reservation-aware search loop. -/
structure TimeSearchState where
  openList : List TimeNode
  cameFrom : List ((Point × Nat) × (Point × Nat))
  gScore : List ((Point × Nat) × Nat)
  deriving Repr

/-- The body of `for &(dx, dy) in &dirs { .. }`: try one move out of
`(pos, g)`, with every rejection test of the source in order. -/
def timeRelax (W H : Nat) (grid : List (List Char)) (goal : Point)
    (node_res : List (Point × Nat)) (edge_res : List ((Point × Point) × Nat))
    (pos : Point) (g : Nat) (st : TimeSearchState) (d : Int × Int) :
    TimeSearchState :=
  let nx : Int := (pos.1 : Int) + d.1
  let ny : Int := (pos.2 : Int) + d.2
  if nx < 0 ∨ ny < 0 then st
  else
    let np : Point := (nx.toNat, ny.toNat)
    if H ≤ np.2 ∨ W ≤ np.1 ∨ cellAt grid np.2 np.1 ≠ '.' then st
    else
      let next_time := g + 1
      if node_res.contains (np, next_time) then st
      else if edge_res.contains ((pos, np), next_time) ∨
          edge_res.contains ((np, pos), next_time) then st
      else if node_res.contains (np, next_time) ∨
          node_res.contains (pos, next_time) then st
      else if edge_res.contains ((np, pos), next_time - 1) ∧
          edge_res.contains ((pos, np), next_time) then st
      else
        let tentative_g := next_time
        let key := (np, tentative_g)
        let best := (st.gScore.lookup key).getD usizeMax
        if tentative_g < best then
          { openList := ⟨np, tentative_g,
              tentative_g + heuristic np goal⟩ :: st.openList,
            cameFrom := (key, (pos, g)) :: st.cameFrom,
            gScore := (key, tentative_g) :: st.gScore }
        else st

/-- Path reconstruction of `astar_with_reservation`: push `cur.0`, follow
`came_from`, finally push `start` and reverse.  Along `came_from` the time
component strictly decreases and every parent is again a key (or the
start state), so distinct keys bound the chain length:
`came_from.len() + 1` fuel is never exhausted on reachable states. -/
def reconPtsAux (cameFrom : List ((Point × Nat) × (Point × Nat))) :
    Nat → Point × Nat → List Point → List Point
  | 0, _, acc => acc
  | fuel + 1, cur, acc =>
    match cameFrom.lookup cur with
    | none => acc
    | some prev => reconPtsAux cameFrom fuel prev (acc ++ [cur.1])

def reconstructPts (cameFrom : List ((Point × Nat) × (Point × Nat)))
    (start : Point) (cur : Point × Nat) : List Point :=
  ((reconPtsAux cameFrom (cameFrom.length + 1) cur []) ++ [start]).reverse

/-- The `while let Some(TimeNode { pos, g, .. }) = open.pop()` loop.
`none` = fuel ran out (the Rust loop runs forever when the goal is
unreachable, since WAIT moves generate unboundedly many states);
`some none` = open list exhausted (`return None` in Rust);
`some (some p)` = goal reached (`return Some(path)`). -/
def astarLoop (W H : Nat) (grid : List (List Char)) (start goal : Point)
    (node_res : List (Point × Nat)) (edge_res : List ((Point × Point) × Nat)) :
    Nat → TimeSearchState → Option (Option (List Point))
  | 0, _ => none
  | fuel + 1, st =>
    match heapPop TimeNode.cmp st.openList with
    | none => some none
    | some (current, rest) =>
      if current.pos = goal then
        some (some (reconstructPts st.cameFrom start (current.pos, current.g)))
      else
        astarLoop W H grid start goal node_res edge_res fuel
          (dirs.foldl
            (timeRelax W H grid goal node_res edge_res current.pos current.g)
            ⟨rest, st.cameFrom, st.gScore⟩)

/-- `astar_with_reservation(grid, start, goal, node_res, edge_res,
start_time)`. -/
def astar_with_reservation (W H : Nat) (grid : List (List Char))
    (start goal : Point) (node_res : List (Point × Nat))
    (edge_res : List ((Point × Point) × Nat)) (start_time : Nat)
    (fuel : Nat) : Option (Option (List Point)) :=
  astarLoop W H grid start goal node_res edge_res fuel
    { openList := [⟨start, start_time, start_time + heuristic start goal⟩],
      cameFrom := [],
      gScore := [((start, start_time), 0)] }

/-! ### C3 — reservation safety of `astar_with_reservation` -/

theorem not_mem_of_contains_eq_false [BEq α] [LawfulBEq α] {l : List α}
    {a : α} (h : l.contains a = false) : a ∉ l := by
  intro hmem
  have h2 : l.contains a = true := List.elem_iff.2 hmem
  rw [h2] at h
  cases h

/-- `q` is a key of the `came_from` map. -/
def timeKey (cf : List ((Point × Nat) × (Point × Nat)))
    (q : Point × Nat) : Prop :=
  ∃ v, (q, v) ∈ cf

/-- Invariant of `came_from`: each entry `((np, t), (p, g))` records a
move `p → np` arriving at time `t = g + 1 > start_time` that passed the
reservation checks, and its parent `(p, g)` is the start state or again a
key. -/
def CFInv (node_res : List (Point × Nat))
    (edge_res : List ((Point × Point) × Nat)) (start : Point) (s : Nat)
    (cf : List ((Point × Nat) × (Point × Nat))) : Prop :=
  ∀ e ∈ cf,
    e.1.2 = e.2.2 + 1 ∧ s + 1 ≤ e.1.2 ∧
    node_res.contains (e.1.1, e.1.2) = false ∧
    edge_res.contains ((e.2.1, e.1.1), e.1.2) = false ∧
    edge_res.contains ((e.1.1, e.2.1), e.1.2) = false ∧
    (e.2 = (start, s) ∨ timeKey cf e.2)

/-- Invariant of the open list: times stay in
`[start_time, start_time + |came_from|]` and every entry is the start
state or a `came_from` key. -/
def OpenInv (start : Point) (s : Nat)
    (cf : List ((Point × Nat) × (Point × Nat)))
    (openL : List TimeNode) : Prop :=
  ∀ tn ∈ openL, s ≤ tn.g ∧ tn.g ≤ s + cf.length ∧
    ((tn.pos, tn.g) = (start, s) ∨ timeKey cf (tn.pos, tn.g))

/-- The safety property of a returned path: step `k ≥ 1` lands on an
unreserved `(cell, start_time + k)` and traverses no reserved edge in
either direction at that time. -/
def SafePath (node_res : List (Point × Nat))
    (edge_res : List ((Point × Point) × Nat)) (s : Nat)
    (l : List Point) : Prop :=
  ∀ k, 1 ≤ k → k < l.length →
    node_res.contains (l.getD k (0, 0), s + k) = false ∧
    edge_res.contains ((l.getD (k - 1) (0, 0), l.getD k (0, 0)), s + k)
      = false ∧
    edge_res.contains ((l.getD k (0, 0), l.getD (k - 1) (0, 0)), s + k)
      = false

/-- `timeRelax` either leaves the state unchanged or pushes one checked
move. -/
theorem timeRelax_cases (W H : Nat) (grid : List (List Char)) (goal : Point)
    (node_res : List (Point × Nat)) (edge_res : List ((Point × Point) × Nat))
    (pos : Point) (g : Nat) (st : TimeSearchState) (d : Int × Int) :
    timeRelax W H grid goal node_res edge_res pos g st d = st ∨
    ∃ np : Point,
      timeRelax W H grid goal node_res edge_res pos g st d =
        { openList := ⟨np, g + 1, g + 1 + heuristic np goal⟩ :: st.openList,
          cameFrom := ((np, g + 1), (pos, g)) :: st.cameFrom,
          gScore := ((np, g + 1), g + 1) :: st.gScore } ∧
      node_res.contains (np, g + 1) = false ∧
      edge_res.contains ((pos, np), g + 1) = false ∧
      edge_res.contains ((np, pos), g + 1) = false := by
  simp only [timeRelax]
  by_cases h1 : ((pos.1 : Int) + d.1 < 0 ∨ (pos.2 : Int) + d.2 < 0)
  · rw [if_pos h1]; exact Or.inl rfl
  rw [if_neg h1]
  by_cases h2 : (H ≤ (((pos.2 : Int) + d.2).toNat) ∨
      W ≤ (((pos.1 : Int) + d.1).toNat) ∨
      cellAt grid (((pos.2 : Int) + d.2).toNat)
        (((pos.1 : Int) + d.1).toNat) ≠ '.')
  · rw [if_pos h2]; exact Or.inl rfl
  rw [if_neg h2]
  by_cases h3 : node_res.contains
      ((((pos.1 : Int) + d.1).toNat, ((pos.2 : Int) + d.2).toNat), g + 1)
      = true
  · rw [if_pos h3]; exact Or.inl rfl
  rw [if_neg h3]
  by_cases h4 : (edge_res.contains ((pos,
        (((pos.1 : Int) + d.1).toNat, ((pos.2 : Int) + d.2).toNat)), g + 1) ∨
      edge_res.contains (((((pos.1 : Int) + d.1).toNat,
        ((pos.2 : Int) + d.2).toNat), pos), g + 1))
  · rw [if_pos h4]; exact Or.inl rfl
  rw [if_neg h4]
  by_cases h5 : (node_res.contains
      ((((pos.1 : Int) + d.1).toNat, ((pos.2 : Int) + d.2).toNat), g + 1) ∨
      node_res.contains (pos, g + 1))
  · rw [if_pos h5]; exact Or.inl rfl
  rw [if_neg h5]
  by_cases h6 : (edge_res.contains (((((pos.1 : Int) + d.1).toNat,
        ((pos.2 : Int) + d.2).toNat), pos), g + 1 - 1) ∧
      edge_res.contains ((pos, (((pos.1 : Int) + d.1).toNat,
        ((pos.2 : Int) + d.2).toNat)), g + 1))
  · rw [if_pos h6]; exact Or.inl rfl
  rw [if_neg h6]
  by_cases h7 : g + 1 < (st.gScore.lookup
      ((((pos.1 : Int) + d.1).toNat, ((pos.2 : Int) + d.2).toNat), g + 1)
      ).getD usizeMax
  · rw [if_pos h7]
    push_neg at h4
    refine Or.inr ⟨(((pos.1 : Int) + d.1).toNat,
      ((pos.2 : Int) + d.2).toNat), rfl, ?_, ?_, ?_⟩
    · exact Bool.eq_false_iff.2 h3
    · exact Bool.eq_false_iff.2 (fun hc => h4.1 hc)
    · exact Bool.eq_false_iff.2 (fun hc => h4.2 hc)
  · rw [if_neg h7]; exact Or.inl rfl

/-- Invariant preservation through the direction fold of one loop
iteration of `astar_with_reservation`. -/
theorem timeRelaxFold_inv (W H : Nat) (grid : List (List Char))
    (goal : Point) (node_res : List (Point × Nat))
    (edge_res : List ((Point × Point) × Nat)) (start : Point) (s : Nat)
    (pos : Point) (g : Nat) (hg : s ≤ g) :
    ∀ (ds : List (Int × Int)) (st : TimeSearchState),
    CFInv node_res edge_res start s st.cameFrom →
    OpenInv start s st.cameFrom st.openList →
    ((pos, g) = (start, s) ∨ timeKey st.cameFrom (pos, g)) →
    g ≤ s + st.cameFrom.length →
    CFInv node_res edge_res start s
      (TimeSearchState.cameFrom
        (ds.foldl (timeRelax W H grid goal node_res edge_res pos g) st)) ∧
    OpenInv start s
      (TimeSearchState.cameFrom
        (ds.foldl (timeRelax W H grid goal node_res edge_res pos g) st))
      (TimeSearchState.openList
        (ds.foldl (timeRelax W H grid goal node_res edge_res pos g) st)) := by
  intro ds
  induction ds with
  | nil => intro st hcf hop _ _; exact ⟨hcf, hop⟩
  | cons d ds ih =>
    intro st hcf hop hpar hgb
    rw [List.foldl_cons]
    rcases timeRelax_cases W H grid goal node_res edge_res pos g st d with
      heq | ⟨np, heq, hnres, hepn, henp⟩
    · rw [heq]
      exact ih st hcf hop hpar hgb
    · rw [heq]
      refine ih _ ?_ ?_ ?_ ?_
      · -- CFInv with the new entry
        intro e he
        rcases List.mem_cons.1 he with rfl | he'
        · refine ⟨rfl, by simp only []; omega, hnres, hepn, henp, ?_⟩
          rcases hpar with hp | ⟨v, hv⟩
          · exact Or.inl hp
          · exact Or.inr ⟨v, List.mem_cons_of_mem _ hv⟩
        · rcases hcf e he' with ⟨a1, a2, a3, a4, a5, a6⟩
          refine ⟨a1, a2, a3, a4, a5, ?_⟩
          rcases a6 with hp | ⟨v, hv⟩
          · exact Or.inl hp
          · exact Or.inr ⟨v, List.mem_cons_of_mem _ hv⟩
      · -- OpenInv with the pushed node
        intro tn htn
        rcases List.mem_cons.1 htn with rfl | htn'
        · refine ⟨by simp; omega, ?_, ?_⟩
          · simp only [List.length_cons]
            omega
          · exact Or.inr ⟨(pos, g), List.mem_cons_self _ _⟩
        · rcases hop tn htn' with ⟨b1, b2, b3⟩
          refine ⟨b1, ?_, ?_⟩
          · simp only [List.length_cons]
            omega
          · rcases b3 with hp | ⟨v, hv⟩
            · exact Or.inl hp
            · exact Or.inr ⟨v, List.mem_cons_of_mem _ hv⟩
      · rcases hpar with hp | ⟨v, hv⟩
        · exact Or.inl hp
        · exact Or.inr ⟨v, List.mem_cons_of_mem _ hv⟩
      · simp only [List.length_cons]
        omega

/-- Walking `came_from` from a key (or the start state) yields the chain
of positions back to `start`; the reassembled path is reservation-safe
and places index `k` at time `start_time + k`. -/
theorem reconPtsAux_spec (node_res : List (Point × Nat))
    (edge_res : List ((Point × Point) × Nat)) (start : Point) (s : Nat)
    (cf : List ((Point × Nat) × (Point × Nat)))
    (hcf : CFInv node_res edge_res start s cf) :
    ∀ (fuel : Nat) (cur : Point × Nat),
    (cur = (start, s) ∨ timeKey cf cur) → s ≤ cur.2 → cur.2 - s ≤ fuel →
    ∃ tail : List Point,
      (∀ acc, reconPtsAux cf fuel cur acc = acc ++ tail) ∧
      tail.length = cur.2 - s ∧
      (start :: tail.reverse).getD ((start :: tail.reverse).length - 1) (0, 0)
        = cur.1 ∧
      SafePath node_res edge_res s (start :: tail.reverse) := by
  intro fuel
  induction fuel with
  | zero =>
    intro cur hkey hs hb
    have hcs : cur = (start, s) := by
      rcases hkey with h | ⟨v, hv⟩
      · exact h
      · exfalso
        have h21 : s + 1 ≤ cur.2 := (hcf _ hv).2.1
        omega
    refine ⟨[], ?_, ?_, ?_, ?_⟩
    · intro acc; simp [reconPtsAux]
    · rw [hcs]; simp
    · rw [hcs]; rfl
    · intro k hk1 hk2
      simp at hk2
      omega
  | succ fuel ih =>
    intro cur hkey hs hb
    by_cases hcs : cur = (start, s)
    · -- the chain has reached the start state: no entry has this key
      have hlk : cf.lookup cur = none := by
        cases hlk : cf.lookup cur with
        | none => rfl
        | some v =>
          exfalso
          have hmem := lookup_mem hlk
          have h21 : s + 1 ≤ cur.2 := (hcf _ hmem).2.1
          rw [hcs] at h21
          simp at h21
      refine ⟨[], ?_, ?_, ?_, ?_⟩
      · intro acc
        rw [reconPtsAux, hlk]
        simp
      · rw [hcs]; simp
      · rw [hcs]; rfl
      · intro k hk1 hk2
        simp at hk2
        omega
    · -- follow the parent pointer
      rcases hkey with h | ⟨v, hv⟩
      · exact absurd h hcs
      rcases lookup_isSome_of_mem hv with ⟨prev, hlk⟩
      have hmem := lookup_mem hlk
      rcases hcf _ hmem with ⟨e1, e2, e3, e4, e5, e6⟩
      have e1' : cur.2 = prev.2 + 1 := e1
      have e2' : s + 1 ≤ cur.2 := e2
      have e3' : node_res.contains (cur.1, cur.2) = false := e3
      have e4' : edge_res.contains ((prev.1, cur.1), cur.2) = false := e4
      have e5' : edge_res.contains ((cur.1, prev.1), cur.2) = false := e5
      have e6' : prev = (start, s) ∨ timeKey cf prev := e6
      have hsp : s ≤ prev.2 := by omega
      have hbp : prev.2 - s ≤ fuel := by omega
      rcases ih prev e6' hsp hbp with ⟨tail', hrec, hlen, hlast, hsafe⟩
      refine ⟨cur.1 :: tail', ?_, ?_, ?_, ?_⟩
      · intro acc
        have hstep : reconPtsAux cf (fuel + 1) cur acc =
            reconPtsAux cf fuel prev (acc ++ [cur.1]) := by
          rw [reconPtsAux, hlk]
        rw [hstep, hrec (acc ++ [cur.1]), List.append_assoc]
        rfl
      · simp only [List.length_cons, hlen]
        omega
      · -- last element of the reassembled path is `cur`'s position
        have : start :: (cur.1 :: tail').reverse =
            (start :: tail'.reverse) ++ [cur.1] := by simp
        rw [this]
        have hlen2 : (start :: tail'.reverse).length + 1 - 1 =
            (start :: tail'.reverse).length := by omega
        rw [List.length_append, List.length_singleton, hlen2,
          List.getD_eq_getElem?_getD, List.getElem?_concat_length]
        rfl
      · -- safety of the extended path
        have hform : start :: (cur.1 :: tail').reverse =
            (start :: tail'.reverse) ++ [cur.1] := by simp
        rw [hform]
        intro k hk1 hk2
        rw [List.length_append, List.length_singleton] at hk2
        by_cases hkend : k < (start :: tail'.reverse).length
        · have hk1' : k - 1 < (start :: tail'.reverse).length := by omega
          rw [List.getD_append _ _ _ _ hkend,
            List.getD_append _ _ _ _ hk1']
          exact hsafe k hk1 hkend
        · -- k is the final index: the new link `prev.1 → cur.1`
          have hkeq : k = (start :: tail'.reverse).length := by omega
          have hklen : (start :: tail'.reverse).length =
              prev.2 - s + 1 := by
            simp only [List.length_cons, List.length_reverse, hlen]
          have htime : s + k = cur.2 := by omega
          have hk1' : k - 1 < (start :: tail'.reverse).length := by omega
          have hgetk : ((start :: tail'.reverse) ++ [cur.1]).getD k (0, 0)
              = cur.1 := by
            rw [hkeq, List.getD_eq_getElem?_getD,
              List.getElem?_concat_length]
            rfl
          have hgetk1 : ((start :: tail'.reverse) ++ [cur.1]).getD (k - 1)
              (0, 0) = prev.1 := by
            rw [List.getD_append _ _ _ _ hk1']
            have : k - 1 = (start :: tail'.reverse).length - 1 := by omega
            rw [this]
            exact hlast
          rw [hgetk, hgetk1, htime]
          exact ⟨e3, e4, e5⟩

/-- Safety of the search loop: under the two invariants, any returned path
is reservation-safe. -/
theorem astarLoop_safe (W H : Nat) (grid : List (List Char))
    (start goal : Point) (node_res : List (Point × Nat))
    (edge_res : List ((Point × Point) × Nat)) (s : Nat) :
    ∀ (fuel : Nat) (st : TimeSearchState),
    CFInv node_res edge_res start s st.cameFrom →
    OpenInv start s st.cameFrom st.openList →
    ∀ path, astarLoop W H grid start goal node_res edge_res fuel st =
      some (some path) →
    SafePath node_res edge_res s path := by
  intro fuel
  induction fuel with
  | zero => intro st _ _ path h; simp [astarLoop] at h
  | succ fuel ih =>
    intro st hcf hop path hrun
    rw [astarLoop] at hrun
    cases hpop : heapPop TimeNode.cmp st.openList with
    | none =>
      rw [hpop] at hrun
      simp at hrun
    | some pr =>
      rcases pr with ⟨current, rest⟩
      rw [hpop] at hrun
      have hrun' : (if current.pos = goal then
          some (some (reconstructPts st.cameFrom start
            (current.pos, current.g)))
        else astarLoop W H grid start goal node_res edge_res fuel
          (dirs.foldl
            (timeRelax W H grid goal node_res edge_res current.pos current.g)
            ⟨rest, st.cameFrom, st.gScore⟩)) = some (some path) := hrun
      clear hrun
      have hcurmem : current ∈ st.openList :=
        (heapPop_perm _ hpop).mem_iff.1 (List.mem_cons_self _ _)
      rcases hop current hcurmem with ⟨hg1, hg2, hg3⟩
      by_cases hgoal : current.pos = goal
      · rw [if_pos hgoal] at hrun'
        simp only [Option.some.injEq] at hrun'
        rcases reconPtsAux_spec node_res edge_res start s st.cameFrom hcf
            (st.cameFrom.length + 1) (current.pos, current.g) hg3 hg1
            (by omega) with ⟨tail, hrec, _, _, hsafe⟩
        rw [← hrun']
        unfold reconstructPts
        rw [hrec []]
        have : (([] ++ tail) ++ [start]).reverse = start :: tail.reverse := by
          simp
        rw [this]
        exact hsafe
      · rw [if_neg hgoal] at hrun'
        have hrest : OpenInv start s st.cameFrom rest := by
          intro tn htn
          exact hop tn ((heapPop_perm _ hpop).mem_iff.1
            (List.mem_cons_of_mem _ htn))
        have hfold := timeRelaxFold_inv W H grid goal node_res edge_res
          start s current.pos current.g hg1 dirs
          ⟨rest, st.cameFrom, st.gScore⟩ hcf hrest hg3 hg2
        exact ih _ hfold.1 hfold.2 path hrun'

/-- **C3.** Whenever `astar_with_reservation` returns a path, every step
`k ≥ 1` of that path lands on a cell that is not node-reserved at time
`start_time + k`, and traverses no edge that is reserved — in either
direction — at that time. -/
theorem astar_with_reservation_safe (W H : Nat) (grid : List (List Char))
    (start goal : Point) (node_res : List (Point × Nat))
    (edge_res : List ((Point × Point) × Nat)) (start_time fuel : Nat)
    (path : List Point)
    (h : astar_with_reservation W H grid start goal node_res edge_res
      start_time fuel = some (some path)) :
    ∀ k, 1 ≤ k → k < path.length →
      (path.getD k (0, 0), start_time + k) ∉ node_res ∧
      ((path.getD (k - 1) (0, 0), path.getD k (0, 0)), start_time + k)
        ∉ edge_res ∧
      ((path.getD k (0, 0), path.getD (k - 1) (0, 0)), start_time + k)
        ∉ edge_res := by
  have hsafe := astarLoop_safe W H grid start goal node_res edge_res
    start_time fuel
    { openList := [⟨start, start_time, start_time + heuristic start goal⟩],
      cameFrom := [], gScore := [((start, start_time), 0)] }
    (by intro e he; simp at he)
    (by
      intro tn htn
      rcases List.mem_singleton.1 htn with rfl
      exact ⟨Nat.le_refl _, by simp, Or.inl rfl⟩)
    path h
  intro k hk1 hk2
  rcases hsafe k hk1 hk2 with ⟨h1, h2, h3⟩
  exact ⟨not_mem_of_contains_eq_false h1, not_mem_of_contains_eq_false h2,
    not_mem_of_contains_eq_false h3⟩

theorem astar_with_reservation_safe_witness :
    astar_with_reservation 2 1 [['.', '.']] (0, 0) (1, 0) [((0, 1), 7)] []
      0 10 = some (some [(0, 0), (1, 0)]) ∧
    (([(0, 0), (1, 0)] : List Point).getD 1 (0, 0), 0 + 1) ∉
      [(((0, 1) : Point), 7)] :=
  ⟨by decide,
    (astar_with_reservation_safe 2 1 [['.', '.']] (0, 0) (1, 0)
      [((0, 1), 7)] [] 0 10 [(0, 0), (1, 0)] (by decide) 1 (by decide)
      (by decide)).1⟩

/-- **C10.** With `start = goal`, `astar_with_reservation` returns
`Some([start])` on the very first pop — for *every* grid, node
reservation, edge reservation and start time, including when
`(start, start_time)` is node-reserved or the start cell is not free:
none of the rejection checks run before the goal test. -/
theorem astar_start_eq_goal (W H : Nat) (grid : List (List Char))
    (goal : Point) (node_res : List (Point × Nat))
    (edge_res : List ((Point × Point) × Nat)) (start_time fuel : Nat) :
    astar_with_reservation W H grid goal goal node_res edge_res start_time
      (fuel + 1) = some (some [goal]) := by
  have h1 : astar_with_reservation W H grid goal goal node_res edge_res
      start_time (fuel + 1) =
      (if goal = goal then
        some (some (reconstructPts [] goal (goal, start_time)))
      else astarLoop W H grid goal goal node_res edge_res fuel
        (dirs.foldl (timeRelax W H grid goal node_res edge_res
          goal start_time) ⟨[], [], [((goal, start_time), 0)]⟩)) := rfl
  rw [h1, if_pos rfl]
  rfl

/-! ### C5/C6 — grid-to-graph conversion and the task generator -/

/-- `w = grid[0].len()` (Rust panics on an empty grid; the model yields
`0`, making the cell scan empty). -/
def gridWidth (grid : List (List Char)) : Nat := (grid.getD 0 []).length

/-- The `id2pos` vector built at the top of `tswap_mapd`
(`src/algorithm/tswap.rs` lines 44-59): a row-major scan in which a cell
becomes a graph node iff its character differs from `'@'`
(`grid[y][x] != '@'`). -/
def id2posOf (grid : List (List Char)) : List Point :=
  (List.range grid.length).flatMap (fun y =>
    ((List.range (gridWidth grid)).filter
      (fun x => cellAt grid y x != '@')).map (fun x => ((x, y) : Point)))

/-- `get_free_cells` from `src/map/make_node.rs`: enumerate rows and
cells, keeping exactly the cells whose character equals `'.'`. -/
def get_free_cells (grid : List (List Char)) : List Point :=
  (List.range grid.length).flatMap (fun y =>
    ((List.range (grid.getD y []).length).filter
      (fun x => cellAt grid y x == '.')).map (fun x => ((x, y) : Point)))

theorem mem_id2posOf (grid : List (List Char)) (p : Point) :
    p ∈ id2posOf grid ↔
      p.2 < grid.length ∧ p.1 < gridWidth grid ∧
        cellAt grid p.2 p.1 ≠ '@' := by
  unfold id2posOf
  rw [List.mem_flatMap]
  constructor
  · rintro ⟨y, hy, hmem⟩
    rcases List.mem_map.1 hmem with ⟨x, hx, rfl⟩
    rcases List.mem_filter.1 hx with ⟨hxr, hxc⟩
    refine ⟨List.mem_range.1 hy, List.mem_range.1 hxr, ?_⟩
    simpa using hxc
  · rintro ⟨hy, hx, hc⟩
    refine ⟨p.2, List.mem_range.2 hy, ?_⟩
    refine List.mem_map.2 ⟨p.1, ?_, rfl⟩
    exact List.mem_filter.2 ⟨List.mem_range.2 hx, by simpa using hc⟩

theorem mem_get_free_cells (grid : List (List Char)) (p : Point) :
    p ∈ get_free_cells grid ↔
      p.2 < grid.length ∧ p.1 < (grid.getD p.2 []).length ∧
        cellAt grid p.2 p.1 = '.' := by
  unfold get_free_cells
  rw [List.mem_flatMap]
  constructor
  · rintro ⟨y, hy, hmem⟩
    rcases List.mem_map.1 hmem with ⟨x, hx, rfl⟩
    rcases List.mem_filter.1 hx with ⟨hxr, hxc⟩
    refine ⟨List.mem_range.1 hy, List.mem_range.1 hxr, ?_⟩
    simpa using hxc
  · rintro ⟨hy, hx, hc⟩
    refine ⟨p.2, List.mem_range.2 hy, ?_⟩
    refine List.mem_map.2 ⟨p.1, ?_, rfl⟩
    exact List.mem_filter.2 ⟨List.mem_range.2 hx, by simpa using hc⟩

/-- **C5, counterexample.** On the one-cell grid `[['T']]` the cell
`(0, 0)` is *not* free (`'T' ≠ '.'`) and is excluded from the free-cell
list, yet `tswap_mapd`'s graph does contain it as a node, because the
graph construction tests `grid[y][x] != '@'`, not `== '.'`. -/
theorem graph_free_iff_counterexample :
    ((0, 0) : Point) ∈ id2posOf [['T']] ∧
    cellAt [['T']] 0 0 ≠ '.' ∧
    ((0, 0) : Point) ∉ get_free_cells [['T']] := by
  refine ⟨by decide, by decide, by decide⟩

/-- **C5, amended.** In the node graph built by `tswap_mapd`, a cell
`(x, y)` of a rectangular grid appears as a node iff its character
differs from `'@'` — every non-`'@'` character (not only `'.'`) is
traversable there; the free-cell list of `get_free_cells`, by contrast,
contains exactly the cells whose character equals `'.'`. -/
theorem graph_cells_characterization (grid : List (List Char)) (p : Point)
    (hrect : ∀ row ∈ grid, row.length = gridWidth grid) :
    (p ∈ id2posOf grid ↔
      p.2 < grid.length ∧ p.1 < gridWidth grid ∧
        cellAt grid p.2 p.1 ≠ '@') ∧
    (p ∈ get_free_cells grid ↔
      p.2 < grid.length ∧ p.1 < gridWidth grid ∧
        cellAt grid p.2 p.1 = '.') := by
  refine ⟨mem_id2posOf grid p, ?_⟩
  rw [mem_get_free_cells]
  constructor
  · rintro ⟨h1, h2, h3⟩
    refine ⟨h1, ?_, h3⟩
    have hrow : grid.getD p.2 [] ∈ grid := by
      rw [List.getD_eq_getElem grid [] h1]
      exact List.getElem_mem h1
    rwa [hrect _ hrow] at h2
  · rintro ⟨h1, h2, h3⟩
    refine ⟨h1, ?_, h3⟩
    have hrow : grid.getD p.2 [] ∈ grid := by
      rw [List.getD_eq_getElem grid [] h1]
      exact List.getElem_mem h1
    rwa [hrect _ hrow]

theorem graph_cells_characterization_witness :
    (((0, 1) : Point) ∈ id2posOf [['.', '@'], ['T', '.']] ↔
      (1 : Nat) < 2 ∧ (0 : Nat) < 2 ∧
        cellAt [['.', '@'], ['T', '.']] 1 0 ≠ '@') ∧
    (((0, 1) : Point) ∈ get_free_cells [['.', '@'], ['T', '.']] ↔
      (1 : Nat) < 2 ∧ (0 : Nat) < 2 ∧
        cellAt [['.', '@'], ['T', '.']] 1 0 = '.') :=
  graph_cells_characterization [['.', '@'], ['T', '.']] (0, 1)
    (by decide)

theorem nodup_flatMap_disjoint {f : α → List β} {l : List α}
    (hl : l.Nodup) (hf : ∀ a ∈ l, (f a).Nodup)
    (hdisj : ∀ a₁ ∈ l, ∀ a₂ ∈ l, a₁ ≠ a₂ → ∀ b ∈ f a₁, b ∉ f a₂) :
    (l.flatMap f).Nodup := by
  induction l with
  | nil => simp
  | cons a l ih =>
    rw [List.flatMap_cons, List.nodup_append]
    rcases List.nodup_cons.1 hl with ⟨ha, hl'⟩
    refine ⟨hf a (List.mem_cons_self _ _), ?_, ?_⟩
    · exact ih hl' (fun x hx => hf x (List.mem_cons_of_mem _ hx))
        (fun a₁ h₁ a₂ h₂ hne => hdisj a₁ (List.mem_cons_of_mem _ h₁)
          a₂ (List.mem_cons_of_mem _ h₂) hne)
    · intro b hb hb'
      rcases List.mem_flatMap.1 hb' with ⟨a', ha', hba'⟩
      exact hdisj a (List.mem_cons_self _ _) a'
        (List.mem_cons_of_mem _ ha')
        (fun h => ha (h ▸ ha')) b hb hba'

/-- The free-cell list never repeats a cell. -/
theorem get_free_cells_nodup (grid : List (List Char)) :
    (get_free_cells grid).Nodup := by
  unfold get_free_cells
  refine nodup_flatMap_disjoint (List.nodup_range _) ?_ ?_
  · intro y _
    refine List.Nodup.map ?_ ((List.nodup_range _).filter _)
    intro x₁ x₂ h
    exact congrArg Prod.fst h
  · intro y₁ _ y₂ _ hne b hb₁ hb₂
    rcases List.mem_map.1 hb₁ with ⟨x₁, _, rfl⟩
    rcases List.mem_map.1 hb₂ with ⟨x₂, _, heq⟩
    exact hne (congrArg Prod.snd heq).symm

/-- `struct Task` of `src/map/task_generator.rs`. -/
structure Task where
  pickup : Point
  delivery : Point
  peer_id : Option String
  task_id : Option Nat
  deriving DecidableEq, Repr

/-- `generate_start_goal_pair` from `src/map/make_node.rs`: shuffle the
free cells, `assert!(free_cells.len() >= 2, ..)`, return the first two.
The random shuffle is modelled by passing the shuffled list (theorems
quantify over every permutation of the free cells); the failed assertion
(a panic, not a `None`) is `Except.error` with the assertion message. -/
def generate_start_goal_pair (free_shuffled : List Point) :
    Except String (Point × Point) :=
  if 2 ≤ free_shuffled.length then
    .ok (free_shuffled.getD 0 (0, 0), free_shuffled.getD 1 (0, 0))
  else
    .error "Free cells must be at least 2 to create a start-goal pair"

/-- `TaskGeneratorAgent::generate_task`: the body is literally
`Some(Task { pickup, delivery, peer_id: None, task_id: None })` around
the pair — the `None` arm of its `Option` return type is never built. -/
def generate_task (free_shuffled : List Point) :
    Except String (Option Task) :=
  match generate_start_goal_pair free_shuffled with
  | .error e => .error e
  | .ok (pickup, delivery) =>
    .ok (some { pickup := pickup, delivery := delivery,
                peer_id := none, task_id := none })

/-- **C6, counterexample.** On a grid with no free cell at all — fewer
than two free cells — `generate_task` does *not* return `None`: the
assertion inside `generate_start_goal_pair` fails (a panic), so the
function never returns.  The claimed equivalence "returns None iff fewer
than two free cells" is false. -/
theorem generate_task_counterexample :
    (get_free_cells [['@']]).length < 2 ∧
    generate_task (get_free_cells [['@']]) ≠ .ok none ∧
    generate_task (get_free_cells [['@']]) =
      .error "Free cells must be at least 2 to create a start-goal pair" := by
  have hcomp : generate_task (get_free_cells [['@']]) =
      .error "Free cells must be at least 2 to create a start-goal pair" :=
    rfl
  refine ⟨by decide, ?_, hcomp⟩
  rw [hcomp]
  intro h
  exact Except.noConfusion h

/-- **C6, amended.** `generate_task` never returns `None`.  With fewer
than two free cells the underlying `assert!` fails (the call panics
instead of returning); with at least two free cells it returns
`Some(task)` whose pickup and delivery are two distinct free cells of
the grid and whose `peer_id` and `task_id` are both unset. -/
theorem generate_task_spec (grid : List (List Char))
    (shuffled : List Point)
    (hperm : List.Perm shuffled (get_free_cells grid)) :
    ((get_free_cells grid).length < 2 →
      generate_task shuffled =
        .error "Free cells must be at least 2 to create a start-goal pair") ∧
    (2 ≤ (get_free_cells grid).length →
      ∃ t : Task, generate_task shuffled = .ok (some t) ∧
        t.pickup ∈ get_free_cells grid ∧
        t.delivery ∈ get_free_cells grid ∧
        t.pickup ≠ t.delivery ∧ t.peer_id = none ∧ t.task_id = none) := by
  have hlen : shuffled.length = (get_free_cells grid).length :=
    hperm.length_eq
  constructor
  · intro hlt
    unfold generate_task generate_start_goal_pair
    rw [if_neg (by omega)]
  · intro hge
    have hlen2 : 2 ≤ shuffled.length := by omega
    cases shuffled with
    | nil => simp at hlen2
    | cons p0 rest =>
      cases rest with
      | nil => simp at hlen2
      | cons p1 rest2 =>
        have hnd : (p0 :: p1 :: rest2).Nodup :=
          hperm.nodup_iff.2 (get_free_cells_nodup grid)
        refine ⟨⟨p0, p1, none, none⟩, ?_, ?_, ?_, ?_, rfl, rfl⟩
        · unfold generate_task generate_start_goal_pair
          rw [if_pos hlen2]
          rfl
        · exact hperm.mem_iff.1 (List.mem_cons_self _ _)
        · exact hperm.mem_iff.1
            (List.mem_cons_of_mem _ (List.mem_cons_self _ _))
        · intro heq
          have heq' : p0 = p1 := heq
          rcases List.nodup_cons.1 hnd with ⟨hp0, _⟩
          exact hp0 (by rw [heq']; exact List.mem_cons_self _ _)

theorem generate_task_spec_witness :
    2 ≤ (get_free_cells [['.', '.']]).length ∧
    (∃ t : Task, generate_task (get_free_cells [['.', '.']]) =
        .ok (some t) ∧
      t.pickup ∈ get_free_cells [['.', '.']] ∧
      t.delivery ∈ get_free_cells [['.', '.']] ∧
      t.pickup ≠ t.delivery ∧ t.peer_id = none ∧ t.task_id = none) :=
  ⟨by decide,
    (generate_task_spec [['.', '.']] (get_free_cells [['.', '.']])
      (List.Perm.refl _)).2 (by decide)⟩

/-! ### C7 — the task metrics collector (`src/map/task_metrics.rs`)

`SystemTime::now()` readings are modelled by an explicit clock value
carried with each operation; the caller's clock is assumed monotone
(times nondecreasing in call order), which is what real-time reads
provide. -/

inductive TaskStatus where
  | Pending | Sent | Received | Running | Completed | Failed
  deriving DecidableEq, Repr

structure TaskMetric where
  task_id : Nat
  peer_id : String
  sent_time : Nat
  received_time : Option Nat
  start_time : Option Nat
  completion_time : Option Nat
  status : TaskStatus
  deriving DecidableEq, Repr

/-- `TaskMetric::new`: stamps `sent_time` with the current clock, leaves
the other three timestamps unset, status `Sent`. -/
def TaskMetric.new (task_id : Nat) (peer_id : String) (now : Nat) :
    TaskMetric :=
  ⟨task_id, peer_id, now, none, none, none, .Sent⟩

/-- The collector's `metrics: HashMap<u64, TaskMetric>`, as an
association list observed through `lookup`. -/
def Collector := List (Nat × TaskMetric)

/-- `metrics.get_mut(&task_id)`-then-mutate: update the (first,
lookup-visible) entry with the given key, if any. -/
def updateMetric (c : List (Nat × TaskMetric)) (id : Nat)
    (f : TaskMetric → TaskMetric) : List (Nat × TaskMetric) :=
  match c with
  | [] => []
  | (k, m) :: rest =>
    if k = id then (k, f m) :: rest else (k, m) :: updateMetric rest id f

/-- `add_metric`: `metrics.insert(metric.task_id, metric)`. -/
def add_metric (c : List (Nat × TaskMetric)) (m : TaskMetric) :
    List (Nat × TaskMetric) :=
  (m.task_id, m) :: c

def update_received (c : List (Nat × TaskMetric)) (id now : Nat) :
    List (Nat × TaskMetric) :=
  updateMetric c id (fun m =>
    { m with received_time := some now, status := .Received })

def update_started (c : List (Nat × TaskMetric)) (id now : Nat) :
    List (Nat × TaskMetric) :=
  updateMetric c id (fun m =>
    { m with start_time := some now, status := .Running })

def update_completed (c : List (Nat × TaskMetric)) (id now : Nat) :
    List (Nat × TaskMetric) :=
  updateMetric c id (fun m =>
    { m with completion_time := some now, status := .Completed })

def update_failed (c : List (Nat × TaskMetric)) (id : Nat) :
    List (Nat × TaskMetric) :=
  updateMetric c id (fun m => { m with status := .Failed })

/-- The collector's mutating calls, each paired with the clock value the
call reads (`update_failed` reads no clock). -/
inductive MetricOp where
  | add (task_id : Nat) (peer_id : String)
  | received (task_id : Nat)
  | started (task_id : Nat)
  | completed (task_id : Nat)
  | failed (task_id : Nat)
  deriving DecidableEq, Repr

def applyOp (c : List (Nat × TaskMetric)) : MetricOp × Nat →
    List (Nat × TaskMetric)
  | (.add id peer, now) => add_metric c (TaskMetric.new id peer now)
  | (.received id, now) => update_received c id now
  | (.started id, now) => update_started c id now
  | (.completed id, now) => update_completed c id now
  | (.failed id, _) => update_failed c id

/-- A collector state reached from the empty collector by a call
sequence. -/
def runOps (ops : List (MetricOp × Nat)) : List (Nat × TaskMetric) :=
  ops.foldl applyOp []

theorem lookup_updateMetric_self (c : List (Nat × TaskMetric)) (id : Nat)
    (f : TaskMetric → TaskMetric) :
    (updateMetric c id f).lookup id = (c.lookup id).map f := by
  induction c with
  | nil => rfl
  | cons e c ih =>
    rcases e with ⟨k, m⟩
    rw [updateMetric]
    by_cases hk : k = id
    · subst hk
      rw [if_pos rfl]
      simp [List.lookup]
    · rw [if_neg hk]
      have hbeq : (id == k) = false := by
        simp [Nat.beq_eq_true_eq]
        exact fun h => hk h.symm
      simp only [List.lookup, hbeq]
      exact ih

theorem lookup_updateMetric_ne (c : List (Nat × TaskMetric)) (id id' : Nat)
    (f : TaskMetric → TaskMetric) (h : id' ≠ id) :
    (updateMetric c id f).lookup id' = c.lookup id' := by
  induction c with
  | nil => rfl
  | cons e c ih =>
    rcases e with ⟨k, m⟩
    rw [updateMetric]
    by_cases hk : k = id
    · subst hk
      rw [if_pos rfl]
      have hbeq : (id' == k) = false := by
        simp [Nat.beq_eq_true_eq]
        exact h
      simp only [List.lookup, hbeq]
    · rw [if_neg hk]
      simp only [List.lookup]
      cases hbeq : id' == k with
      | true => rfl
      | false => exact ih

/-- Every set timestamp of `m` is at most `t`. -/
def TimesLE (m : TaskMetric) (t : Nat) : Prop :=
  m.sent_time ≤ t ∧ (∀ r, m.received_time = some r → r ≤ t) ∧
  (∀ x, m.start_time = some x → x ≤ t) ∧
  (∀ x, m.completion_time = some x → x ≤ t)

/-- The (amended) per-metric invariant: a `Completed` metric has its
completion time set, not earlier than its sent time nor than any set
received or start time. -/
def MetricOK (m : TaskMetric) : Prop :=
  m.status = .Completed →
    ∃ c, m.completion_time = some c ∧ m.sent_time ≤ c ∧
      (∀ r, m.received_time = some r → r ≤ c) ∧
      (∀ x, m.start_time = some x → x ≤ c)

theorem timesLE_mono {m : TaskMetric} {t t' : Nat} (h : TimesLE m t)
    (htt : t ≤ t') : TimesLE m t' := by
  rcases h with ⟨h1, h2, h3, h4⟩
  exact ⟨le_trans h1 htt, fun r hr => le_trans (h2 r hr) htt,
    fun x hx => le_trans (h3 x hx) htt,
    fun x hx => le_trans (h4 x hx) htt⟩

theorem runOps_aux :
    ∀ (ops : List (MetricOp × Nat)) (c : List (Nat × TaskMetric))
      (t₀ : Nat),
    List.Pairwise (fun a b => a.2 ≤ b.2) ops →
    (∀ x ∈ ops, t₀ ≤ x.2) →
    (∀ id m, c.lookup id = some m → MetricOK m ∧ TimesLE m t₀) →
    ∀ id m, (ops.foldl applyOp c).lookup id = some m → MetricOK m := by
  intro ops
  induction ops with
  | nil =>
    intro c t₀ _ _ hc id m hm
    exact (hc id m hm).1
  | cons op ops ih =>
    intro c t₀ hpw hlow hc
    rcases op with ⟨o, t⟩
    have ht₀ : t₀ ≤ t := hlow _ (List.mem_cons_self _ _)
    have hlow' : ∀ x ∈ ops, t ≤ x.2 :=
      fun x hx => (List.pairwise_cons.1 hpw).1 x hx
    have hpw' := (List.pairwise_cons.1 hpw).2
    rw [List.foldl_cons]
    refine ih (applyOp c (o, t)) t hpw' hlow' ?_
    intro id m hm
    cases o with
    | add id₀ peer =>
      simp only [applyOp, add_metric] at hm
      rw [List.lookup] at hm
      cases hbeq : id == (TaskMetric.new id₀ peer t).task_id with
      | true =>
        rw [hbeq] at hm
        simp only [Option.some.injEq] at hm
        rw [← hm]
        constructor
        · intro hst
          exact absurd hst (by simp [TaskMetric.new])
        · exact ⟨Nat.le_refl _, by simp [TaskMetric.new],
            by simp [TaskMetric.new], by simp [TaskMetric.new]⟩
      | false =>
        rw [hbeq] at hm
        rcases hc id m hm with ⟨h1, h2⟩
        exact ⟨h1, timesLE_mono h2 ht₀⟩
    | received id₀ =>
      simp only [applyOp, update_received] at hm
      by_cases hid : id = id₀
      · subst hid
        rw [lookup_updateMetric_self] at hm
        rcases Option.map_eq_some'.1 hm with ⟨m₀, hm₀, rfl⟩
        rcases hc id m₀ hm₀ with ⟨_, ⟨s1, s2, s3, s4⟩⟩
        constructor
        · intro hst
          exact absurd hst (by simp)
        · refine ⟨le_trans s1 ht₀, ?_, ?_, ?_⟩
          · intro r hr
            simp only at hr
            rw [Option.some.injEq] at hr
            omega
          · intro x hx
            simp only at hx
            exact le_trans (s3 x hx) ht₀
          · intro x hx
            simp only at hx
            exact le_trans (s4 x hx) ht₀
      · rw [lookup_updateMetric_ne _ _ _ _ hid] at hm
        rcases hc id m hm with ⟨h1, h2⟩
        exact ⟨h1, timesLE_mono h2 ht₀⟩
    | started id₀ =>
      simp only [applyOp, update_started] at hm
      by_cases hid : id = id₀
      · subst hid
        rw [lookup_updateMetric_self] at hm
        rcases Option.map_eq_some'.1 hm with ⟨m₀, hm₀, rfl⟩
        rcases hc id m₀ hm₀ with ⟨_, ⟨s1, s2, s3, s4⟩⟩
        constructor
        · intro hst
          exact absurd hst (by simp)
        · refine ⟨le_trans s1 ht₀, ?_, ?_, ?_⟩
          · intro r hr
            simp only at hr
            exact le_trans (s2 r hr) ht₀
          · intro x hx
            simp only at hx
            rw [Option.some.injEq] at hx
            omega
          · intro x hx
            simp only at hx
            exact le_trans (s4 x hx) ht₀
      · rw [lookup_updateMetric_ne _ _ _ _ hid] at hm
        rcases hc id m hm with ⟨h1, h2⟩
        exact ⟨h1, timesLE_mono h2 ht₀⟩
    | completed id₀ =>
      simp only [applyOp, update_completed] at hm
      by_cases hid : id = id₀
      · subst hid
        rw [lookup_updateMetric_self] at hm
        rcases Option.map_eq_some'.1 hm with ⟨m₀, hm₀, rfl⟩
        rcases hc id m₀ hm₀ with ⟨_, ⟨s1, s2, s3, s4⟩⟩
        constructor
        · intro _
          refine ⟨t, by simp, le_trans s1 ht₀, ?_, ?_⟩
          · intro r hr
            simp only at hr
            exact le_trans (s2 r hr) ht₀
          · intro x hx
            simp only at hx
            exact le_trans (s3 x hx) ht₀
        · refine ⟨le_trans s1 ht₀, ?_, ?_, ?_⟩
          · intro r hr
            simp only at hr
            exact le_trans (s2 r hr) ht₀
          · intro x hx
            simp only at hx
            exact le_trans (s3 x hx) ht₀
          · intro x hx
            simp only at hx
            rw [Option.some.injEq] at hx
            omega
      · rw [lookup_updateMetric_ne _ _ _ _ hid] at hm
        rcases hc id m hm with ⟨h1, h2⟩
        exact ⟨h1, timesLE_mono h2 ht₀⟩
    | failed id₀ =>
      simp only [applyOp, update_failed] at hm
      by_cases hid : id = id₀
      · subst hid
        rw [lookup_updateMetric_self] at hm
        rcases Option.map_eq_some'.1 hm with ⟨m₀, hm₀, rfl⟩
        rcases hc id m₀ hm₀ with ⟨_, h2⟩
        constructor
        · intro hst
          exact absurd hst (by simp)
        · exact timesLE_mono h2 ht₀
      · rw [lookup_updateMetric_ne _ _ _ _ hid] at hm
        rcases hc id m hm with ⟨h1, h2⟩
        exact ⟨h1, timesLE_mono h2 ht₀⟩

/-- **C7, counterexample.** Reachable in two calls — `add_metric` of a
fresh metric, then `update_completed` — is a stored metric whose status
is `Completed` while `received_time` and `start_time` are both unset:
`update_completed` does not require the earlier lifecycle updates. -/
theorem metrics_completed_counterexample :
    (runOps [(MetricOp.add 1 "p", 0), (MetricOp.completed 1, 1)]).lookup 1
      = some ⟨1, "p", 0, none, none, some 1, .Completed⟩ ∧
    (⟨1, "p", 0, none, none, some 1, .Completed⟩ : TaskMetric).status
      = .Completed ∧
    (⟨1, "p", 0, none, none, some 1, .Completed⟩ : TaskMetric).received_time
      = none ∧
    (⟨1, "p", 0, none, none, some 1, .Completed⟩ : TaskMetric).start_time
      = none := by
  refine ⟨rfl, rfl, rfl, rfl⟩

/-- **C7, amended.** In every collector state reachable from the empty
collector by `add_metric` (of freshly created metrics), `update_received`,
`update_started`, `update_completed` and `update_failed` calls made with
a nondecreasing clock, every stored metric whose status is `Completed`
has `completion_time` set, with
`completion_time ≥ sent_time`, `completion_time ≥` any set
`received_time` and `completion_time ≥` any set `start_time`;
`received_time` and `start_time` may however be unset (and their mutual
order is not constrained). -/
theorem metrics_completed_invariant (ops : List (MetricOp × Nat))
    (hord : List.Pairwise (fun a b => a.2 ≤ b.2) ops) :
    ∀ id m, (runOps ops).lookup id = some m → m.status = .Completed →
      ∃ c, m.completion_time = some c ∧ m.sent_time ≤ c ∧
        (∀ r, m.received_time = some r → r ≤ c) ∧
        (∀ x, m.start_time = some x → x ≤ c) := by
  intro id m hm
  exact runOps_aux ops [] 0 hord (fun x _ => Nat.zero_le _)
    (fun id m hm => by simp [List.lookup] at hm) id m hm

theorem metrics_completed_invariant_witness :
    ∃ c, (⟨1, "p", 0, some 1, some 2, some 3, .Completed⟩ :
        TaskMetric).completion_time = some c ∧
      (⟨1, "p", 0, some 1, some 2, some 3, .Completed⟩ :
        TaskMetric).sent_time ≤ c ∧
      (∀ r, (⟨1, "p", 0, some 1, some 2, some 3, .Completed⟩ :
        TaskMetric).received_time = some r → r ≤ c) ∧
      (∀ x, (⟨1, "p", 0, some 1, some 2, some 3, .Completed⟩ :
        TaskMetric).start_time = some x → x ≤ c) :=
  metrics_completed_invariant
    [(MetricOp.add 1 "p", 0), (MetricOp.received 1, 1),
      (MetricOp.started 1, 2), (MetricOp.completed 1, 3)]
    (by decide) 1 ⟨1, "p", 0, some 1, some 2, some 3, .Completed⟩
    (by rfl) rfl

/-! ### C9 — `tswap_mapd` (`src/algorithm/tswap.rs` lines 39-172)

`pos2id[..]` indexing panics in Rust when a position is not a node; the
model propagates those lookups in the `Option` monad, so `some paths`
is a run the Rust function completes. -/

/-- The `pos2id` map: position of a cell in the `id2pos` scan order. -/
def pos2id (grid : List (List Char)) (p : Point) : Option Nat :=
  position (fun q => q == p) (id2posOf grid)

/-- Neighbor ids of cell `(x, y)`: the four directions, kept when
in-bounds below zero and present in `pos2id`. -/
def neighborsOf (grid : List (List Char)) (x y : Nat) : List Nat :=
  ([(0, 1), (1, 0), (0, -1), (-1, 0)] : List (Int × Int)).filterMap
    (fun d =>
      let nx : Int := (x : Int) + d.1
      let ny : Int := (y : Int) + d.2
      if 0 ≤ nx ∧ 0 ≤ ny then pos2id grid (nx.toNat, ny.toNat) else none)

/-- The node array built by `tswap_mapd`. -/
def nodesOf (grid : List (List Char)) : List Node :=
  (id2posOf grid).enum.map (fun e => ⟨e.1, e.2, neighborsOf grid e.2.1 e.2.2⟩)

/-- `AgentState` from `src/map/agent.rs`. -/
inductive AgentState where
  | PICKING | CARRYING | DELIVERED | IDLE
  deriving DecidableEq, Repr

/-- The internal per-agent phase of `tswap_mapd`. -/
inductive InternalAgentState where
  | Idle | ToPickup | ToDelivery
  deriving DecidableEq, Repr

/-- The mutable state of the simulation loop, minus the recorded paths. -/
structure MapdState where
  agents : List Agent
  states : List InternalAgentState
  task_used : List Bool
  agent_tasks : List (Option Task)
  deriving Repr

def dTask : Task := ⟨(0, 0), (0, 0), none, none⟩

/-- `Iterator::min_by_key` over `(index, key)` pairs: the first pair with
minimal key. -/
def minByFirst : List (Nat × Nat) → Option (Nat × Nat)
  | [] => none
  | c :: cs =>
    match minByFirst cs with
    | none => some c
    | some b => if b.2 < c.2 then some b else some c

/-- The per-agent state-and-task management at the top of each loop
iteration: arrival handling (pickup reached → head for the delivery;
delivery reached → idle) followed by assignment of the nearest unused
task to an idle agent. -/
def manageStep (grid : List (List Char)) (tasks : List Task)
    (st : MapdState) (i : Nat) : Option MapdState := do
  let ag := st.agents.getD i dAgent
  let s0 := st.states.getD i .Idle
  let st1 ←
    if ag.v = ag.g then
      match s0 with
      | .ToPickup =>
        match st.agent_tasks.getD i none with
        | some task => do
          let gid ← pos2id grid task.delivery
          pure { st with states := st.states.set i .ToDelivery,
                         agents := st.agents.set i { ag with g := gid } }
        | none => pure { st with states := st.states.set i .ToDelivery }
      | .ToDelivery =>
        pure { st with states := st.states.set i .Idle,
                       agent_tasks := st.agent_tasks.set i none }
      | .Idle => pure st
    else pure st
  let ag1 := st1.agents.getD i dAgent
  if st1.states.getD i .Idle = .Idle then
    let current_pos := (id2posOf grid).getD ag1.v (0, 0)
    match minByFirst ((tasks.enum.filter
        (fun e => !(st1.task_used.getD e.1 true))).map
      (fun e => (e.1, manhattan_distance current_pos e.2.pickup))) with
    | some (task_idx, _) => do
      let task := tasks.getD task_idx dTask
      let gid ← pos2id grid task.pickup
      pure { st1 with task_used := st1.task_used.set task_idx true,
                      agent_tasks := st1.agent_tasks.set i (some task),
                      states := st1.states.set i .ToPickup,
                      agents := st1.agents.set i { ag1 with g := gid } }
    | none => pure st1
  else pure st1

/-- Record one `(pos, state)` sample per agent (`paths[i].push(..)`). -/
def recordStep (grid : List (List Char)) (st : MapdState)
    (paths : List (List (Point × AgentState))) :
    List (List (Point × AgentState)) :=
  (List.range st.agents.length).foldl (fun ps i =>
    let ag := st.agents.getD i dAgent
    let pos := (id2posOf grid).getD ag.v (0, 0)
    let s := match st.states.getD i .Idle with
      | .Idle => AgentState.IDLE
      | .ToPickup => AgentState.PICKING
      | .ToDelivery =>
        if ag.v = ag.g then AgentState.DELIVERED else AgentState.CARRYING
    ps.set i (ps.getD i [] ++ [(pos, s)])) paths

/-- The simulation loop.  `fuel` mirrors `2001 - timestep`, so the
watchdog break (`timestep > 2000` after the increment) always fires
before the fuel-out branch can be reached. -/
def tswapLoop (grid : List (List Char)) (tasks : List Task)
    (nodes : List Node) (pathFuel : Nat) :
    Nat → Nat → MapdState → List (List (Point × AgentState)) →
      Option (List (List (Point × AgentState)))
  | 0, _, _, paths => some paths
  | fuel + 1, timestep, st, paths => do
    let st1 ← (List.range st.agents.length).foldlM (manageStep grid tasks) st
    let st2 : MapdState := { st1 with agents := tswap_step pathFuel nodes st1.agents }
    let paths' := recordStep grid st2 paths
    let timestep' := timestep + 1
    if ((st2.task_used.all (fun b => b)) = true ∧
        (st2.states.all (fun s => s == InternalAgentState.Idle)) = true) ∨
        2000 < timestep' then
      some paths'
    else
      tswapLoop grid tasks nodes pathFuel fuel timestep' st2 paths'

/-- `tswap_mapd(grid, initial_positions, tasks)`.  The fuel given to the
inner static A* dominates its iteration count on every graph the loop
queries; its exact value does not affect the theorems below. -/
def tswap_mapd (grid : List (List Char)) (initial_positions : List Point)
    (tasks : List Task) : Option (List (List (Point × AgentState))) := do
  let nodes := nodesOf grid
  let agents ← initial_positions.enum.mapM (fun e =>
    (pos2id grid e.2).map (fun nid => (⟨e.1, nid, nid⟩ : Agent)))
  let n := initial_positions.length
  let pathFuel := (nodes.length + 1) * (nodes.length + 1)
  tswapLoop grid tasks nodes pathFuel 2001 0
    { agents := agents,
      states := List.replicate n .Idle,
      task_used := List.replicate tasks.length false,
      agent_tasks := List.replicate n none }
    (List.replicate n [])

/-- Generic bound for the recording fold: a pass over duplicate-free
indices appends at most one sample to each slot. -/
theorem foldl_record_getD {γ : Type} (elem : Nat → γ) :
    ∀ (l : List Nat), l.Nodup → ∀ (ps : List (List γ)) (j : Nat),
      ((l.foldl (fun (ps : List (List γ)) (i : Nat) =>
          ps.set i (ps.getD i [] ++ [elem i])) ps).getD j []).length ≤
        (ps.getD j []).length + (if j ∈ l then 1 else 0) := by
  intro l
  induction l with
  | nil => intro _ ps j; simp
  | cons i l ih =>
    intro hnd ps j
    rcases List.nodup_cons.1 hnd with ⟨hi, hnd'⟩
    rw [List.foldl_cons]
    by_cases hji : j = i
    · subst hji
      have hnotin : j ∉ l := hi
      have := ih hnd' (ps.set j (ps.getD j [] ++ [elem j])) j
      rw [if_neg hnotin] at this
      have hset : (ps.set j (ps.getD j [] ++ [elem j])).getD j [] =
          ps.getD j [] ++ [elem j] ∨
          (ps.set j (ps.getD j [] ++ [elem j])).getD j [] = ps.getD j [] := by
        by_cases hjlen : j < ps.length
        · left
          rw [List.getD_eq_getElem _ _ (by rw [List.length_set]; exact hjlen),
            List.getElem_set_self]
        · right
          rw [List.getD_eq_default _ _ (by rw [List.length_set]; omega),
            List.getD_eq_default _ _ (by omega)]
      rcases hset with hset | hset
      · rw [hset] at this
        simp only [List.length_append, List.length_singleton] at this
        rw [if_pos (List.mem_cons_self _ _)]
        omega
      · rw [hset] at this
        rw [if_pos (List.mem_cons_self _ _)]
        omega
    · have := ih hnd' (ps.set i (ps.getD i [] ++ [elem i])) j
      rw [getD_set_ne (fun h => hji h.symm)] at this
      by_cases hjl : j ∈ l
      · rw [if_pos hjl] at this
        rw [if_pos (List.mem_cons_of_mem _ hjl)]
        exact this
      · rw [if_neg hjl] at this
        rw [if_neg (by
          intro hmem
          rcases List.mem_cons.1 hmem with h | h
          · exact hji h
          · exact hjl h)]
        exact this

theorem recordStep_getD_le (grid : List (List Char)) (st : MapdState)
    (paths : List (List (Point × AgentState))) (j : Nat) :
    ((recordStep grid st paths).getD j []).length ≤
      (paths.getD j []).length + 1 := by
  have h := foldl_record_getD (fun i =>
      (((id2posOf grid).getD (st.agents.getD i dAgent).v (0, 0)),
        (match st.states.getD i .Idle with
          | .Idle => AgentState.IDLE
          | .ToPickup => AgentState.PICKING
          | .ToDelivery =>
            if (st.agents.getD i dAgent).v = (st.agents.getD i dAgent).g
            then AgentState.DELIVERED else AgentState.CARRYING)))
    (List.range st.agents.length) (List.nodup_range _) paths j
  have heq : recordStep grid st paths =
      (List.range st.agents.length).foldl (fun ps i => ps.set i
        (ps.getD i [] ++ [(((id2posOf grid).getD
            (st.agents.getD i dAgent).v (0, 0)),
          (match st.states.getD i .Idle with
            | .Idle => AgentState.IDLE
            | .ToPickup => AgentState.PICKING
            | .ToDelivery =>
              if (st.agents.getD i dAgent).v = (st.agents.getD i dAgent).g
              then AgentState.DELIVERED else AgentState.CARRYING))]))
      paths := rfl
  rw [heq]
  refine le_trans h ?_
  by_cases hj : j ∈ List.range st.agents.length
  · rw [if_pos hj]
  · rw [if_neg hj]
    omega

theorem tswapLoop_getD_le (grid : List (List Char)) (tasks : List Task)
    (nodes : List Node) (pathFuel : Nat) :
    ∀ (fuel timestep : Nat) (st : MapdState)
      (paths out : List (List (Point × AgentState))),
    tswapLoop grid tasks nodes pathFuel fuel timestep st paths = some out →
    ∀ j, (out.getD j []).length ≤ (paths.getD j []).length + fuel := by
  intro fuel
  induction fuel with
  | zero =>
    intro timestep st paths out h j
    rw [tswapLoop] at h
    rw [Option.some.injEq] at h
    rw [← h]
    omega
  | succ fuel ih =>
    intro timestep st paths out h j
    rw [tswapLoop] at h
    cases hfold : (List.range st.agents.length).foldlM
        (manageStep grid tasks) st with
    | none =>
      rw [hfold] at h
      simp at h
    | some st1 =>
      rw [hfold] at h
      simp only [Option.bind_eq_bind, Option.some_bind] at h
      set st2 : MapdState :=
        { st1 with agents := tswap_step pathFuel nodes st1.agents } with hst2
      set paths' := recordStep grid st2 paths with hpaths'
      split at h
      · rw [Option.some.injEq] at h
        rw [← h]
        have hrec := recordStep_getD_le grid st2 paths j
        rw [← hpaths'] at hrec
        omega
      · have hih := ih (timestep + 1) st2 paths' out h j
        have hrec := recordStep_getD_le grid st2 paths j
        rw [← hpaths'] at hrec
        omega

theorem getD_replicate_nil {γ : Type} (n j : Nat) :
    (List.replicate n ([] : List γ)).getD j [] = [] := by
  induction n generalizing j with
  | zero => simp
  | succ n ih =>
    cases j with
    | zero => rfl
    | succ j =>
      rw [List.replicate]
      exact ih j

/-- **C9.** Whenever `tswap_mapd` returns (its `pos2id` lookups all
succeed, as on every well-formed input), each returned per-agent path has
length at most `2001`: the loop exits as soon as all tasks are assigned
and all agents are idle, and unconditionally once the incremented
timestep exceeds the 2000-tick watchdog, having recorded one sample per
agent per iteration. -/
theorem tswap_mapd_path_length (grid : List (List Char))
    (initial_positions : List Point) (tasks : List Task)
    (paths : List (List (Point × AgentState)))
    (h : tswap_mapd grid initial_positions tasks = some paths) :
    ∀ p ∈ paths, p.length ≤ 2001 := by
  intro p hp
  unfold tswap_mapd at h
  cases hmap : initial_positions.enum.mapM (fun e =>
      (pos2id grid e.2).map (fun nid => (⟨e.1, nid, nid⟩ : Agent))) with
  | none =>
    rw [hmap] at h
    simp at h
  | some agents =>
    rw [hmap] at h
    simp only [Option.bind_eq_bind, Option.some_bind] at h
    rcases List.mem_iff_getElem.1 hp with ⟨j, hj, hpj⟩
    have hb := tswapLoop_getD_le grid tasks (nodesOf grid) _ 2001 0 _ _
      paths h j
    rw [getD_replicate_nil] at hb
    have hpd : paths.getD j [] = p := by
      rw [List.getD_eq_getElem _ _ hj, hpj]
    rw [hpd] at hb
    simpa using hb

theorem tswap_mapd_path_length_witness :
    tswap_mapd [['.']] [(0, 0)] [] =
      some [[((0, 0), AgentState.IDLE)]] ∧
    ∀ p ∈ [[(((0, 0) : Point), AgentState.IDLE)]], p.length ≤ 2001 :=
  ⟨by decide,
    tswap_mapd_path_length [['.']] [(0, 0)] [] _ (by decide)⟩

end P2PTswap
